import Mathlib

/-!
# Verification of the qitmeer indexing layer

Shallow embedding of the repository's core logic, with theorems checking the
natural-language specification against it:

* `core/merkle/merkle.go` — `nextPowerOfTwo`, `BuildMerkleTreeStore`,
  `ValidateWitnessCommitment`;
* `services/index/txindex.go` — the transaction index (`Init`, `ConnectBlock`,
  `DisconnectBlock`, `dbFetchTxIndexEntry` and friends);
* `core/blockchain` block index — `addNode`, `removeChainTip`,
  `SetStatusFlags`, `UnsetStatusFlags`.

Machine integers (`uint32`) are modelled as `Nat` with explicit `% 2^32` where
the code can overflow.  Database buckets are modelled as functions
`Nat → Option v` (key to optional stored value).  Go's byte slices are
`List Nat`.  Hashes (`hash.Hash`, 32 bytes) are modelled as `Nat`, with
`hash.ZeroHash = 0`; the concrete hash primitives (`hash.DoubleHashH`) are
abstract parameters of the theorems.
-/

namespace Qitmeer

/-- 32-byte hashes are modelled as naturals; `hash.ZeroHash` is `0`. -/
abbrev Hash := Nat

/-- One transaction input (`types.TxIn`): the fields read by
`ValidateWitnessCommitment` — `PreviousOut.Hash` and `SignScript`. -/
structure TxIn where
  previousOutHash : Hash
  signScript : List Nat
  deriving DecidableEq, Repr

/-- A transaction (`types.Tx` wrapping `types.Transaction`): its plain hash
`TxHash()`, witness-inclusive hash `TxHashFull()`, and inputs `TxIn`. -/
structure Tx where
  txHash : Hash
  txHashFull : Hash
  txIn : List TxIn
  deriving DecidableEq, Repr

/-! ## MerkleEngine (`core/merkle/merkle.go`) -/

/-- `nextPowerOfTwo` (merkle.go lines 265-274).  The Go source computes the
exponent as `uint(math.Log2(float64(n))) + 1`; the float64 logarithm is
modelled as the exact integer base-2 logarithm `Nat.log2 n`, with which it
agrees for every feasible slice length. -/
def nextPowerOfTwo (n : Nat) : Nat :=
  if n &&& (n - 1) = 0 then n
  else 2 ^ (Nat.log2 n + 1)

lemma land_two_mul_add_one (k : Nat) : (2*k+1) &&& (2*k) = 2*k := by
  apply Nat.eq_of_testBit_eq
  intro i
  cases i with
  | zero => simp [Nat.testBit_land, Nat.testBit_zero]
  | succ j =>
      rw [Nat.testBit_land, Nat.testBit_succ, Nat.testBit_succ]
      have h1 : (2*k+1)/2 = k := by omega
      have h2 : (2*k)/2 = k := by omega
      rw [h1, h2, Bool.and_self]

lemma land_two_mul_pred (k : Nat) (hk : 1 ≤ k) :
    (2*k) &&& (2*k-1) = 2*(k &&& (k-1)) := by
  apply Nat.eq_of_testBit_eq
  intro i
  cases i with
  | zero => simp [Nat.testBit_land, Nat.testBit_zero]
  | succ j =>
      rw [Nat.testBit_land, Nat.testBit_succ, Nat.testBit_succ, Nat.testBit_succ]
      have h1 : (2*k)/2 = k := by omega
      have h2 : (2*k-1)/2 = k-1 := by omega
      have h3 : (2*(k &&& (k-1)))/2 = k &&& (k-1) := by omega
      rw [h1, h2, h3, Nat.testBit_land]

lemma land_two_pow_pred (k : Nat) : (2^k) &&& (2^k - 1) = 0 := by
  apply Nat.eq_of_testBit_eq
  intro i
  rw [Nat.testBit_land, Nat.testBit_two_pow, Nat.testBit_two_pow_sub_one, Nat.zero_testBit]
  by_cases h : k = i <;> simp [h]

/-- The Go test `n&(n-1) == 0` recognises exactly the powers of two
(on positive `n`). -/
lemma land_pred_eq_zero_iff : ∀ n : Nat, 1 ≤ n → (n &&& (n-1) = 0 ↔ ∃ k, n = 2^k) := by
  intro n
  induction n using Nat.strong_induction_on with
  | _ n ih =>
    intro h1
    constructor
    · intro h0
      rcases Nat.even_or_odd n with he | ho
      · obtain ⟨k, hk⟩ := he
        have hn : n = 2*k := by omega
        have hk1 : 1 ≤ k := by omega
        rw [hn, land_two_mul_pred k hk1] at h0
        have h0' : k &&& (k-1) = 0 := by omega
        obtain ⟨j, hj⟩ := (ih k (by omega) hk1).mp h0'
        exact ⟨j+1, by rw [hn, hj]; ring⟩
      · obtain ⟨k, hk⟩ := ho
        by_cases hk0 : k = 0
        · exact ⟨0, by omega⟩
        · exfalso
          have h2 : 2*k+1-1 = 2*k := by omega
          rw [hk, h2, land_two_mul_add_one] at h0
          omega
    · rintro ⟨k, rfl⟩
      exact land_two_pow_pred k

/-- `nextPowerOfTwo n` is a power of two (for positive `n`). -/
lemma nextPowerOfTwo_pow (n : Nat) (h : 1 ≤ n) : ∃ k, nextPowerOfTwo n = 2^k := by
  unfold nextPowerOfTwo
  by_cases h0 : n &&& (n-1) = 0
  · simpa [h0] using (land_pred_eq_zero_iff n h).mp h0
  · exact ⟨Nat.log2 n + 1, by simp [h0]⟩

/-- `n ≤ nextPowerOfTwo n` (for positive `n`). -/
lemma le_nextPowerOfTwo (n : Nat) (h : 1 ≤ n) : n ≤ nextPowerOfTwo n := by
  unfold nextPowerOfTwo
  by_cases h0 : n &&& (n-1) = 0
  · simp [h0]
  · simp only [h0, if_false]
    have := (Nat.log2_lt (by omega : n ≠ 0)).mpr (Nat.lt_two_pow n)
    exact le_of_lt ((Nat.log2_lt (by omega : n ≠ 0)).mp (Nat.lt_succ_self _))

/-- C8: for every `n ≥ 1`, `nextPowerOfTwo n` is the smallest power of two
greater than or equal to `n`, and equals `n` when `n` is already a power of
two.  (In particular `1↦1`, `2↦2`, `3↦4`, `5↦8`, `1024↦1024`, `1025↦2048`.) -/
theorem nextPowerOfTwo_correct (n : Nat) (h : 1 ≤ n) :
    (∃ k, nextPowerOfTwo n = 2^k) ∧ n ≤ nextPowerOfTwo n ∧
    (∀ j, n ≤ 2^j → nextPowerOfTwo n ≤ 2^j) ∧
    ((∃ k, n = 2^k) → nextPowerOfTwo n = n) := by
  refine ⟨nextPowerOfTwo_pow n h, le_nextPowerOfTwo n h, ?_, ?_⟩
  · intro j hj
    unfold nextPowerOfTwo
    by_cases h0 : n &&& (n-1) = 0
    · simpa [h0] using hj
    · simp only [h0, if_false]
      have hnp : ¬ ∃ k, n = 2^k := fun hex => h0 ((land_pred_eq_zero_iff n h).mpr hex)
      have hlt : 2 ^ Nat.log2 n < n := by
        rcases Nat.lt_or_ge (2 ^ Nat.log2 n) n with hlt | hge
        · exact hlt
        · have hle : 2 ^ Nat.log2 n ≤ n := (Nat.le_log2 (by omega)).mp (le_refl _)
          exact absurd ⟨Nat.log2 n, by omega⟩ hnp
      have hjlog : Nat.log2 n < j := by
        by_contra hc
        push_neg at hc
        exact absurd (le_trans hj (Nat.pow_le_pow_right (by norm_num) hc)) (by omega)
      exact Nat.pow_le_pow_right (by norm_num) hjlog
  · intro hex
    have h0 := (land_pred_eq_zero_iff n h).mpr hex
    unfold nextPowerOfTwo
    simp [h0]

/-- C8 witness: the documented sample value `1025 ↦ 2048` via the theorem. -/
theorem nextPowerOfTwo_correct_witness :
    1 ≤ 1025 ∧
      ((∃ k, nextPowerOfTwo 1025 = 2^k) ∧ 1025 ≤ nextPowerOfTwo 1025 ∧
        (∀ j, 1025 ≤ 2^j → nextPowerOfTwo 1025 ≤ 2^j) ∧
        ((∃ k, 1025 = 2^k) → nextPowerOfTwo 1025 = 1025)) :=
  ⟨by decide, nextPowerOfTwo_correct 1025 (by decide)⟩

/-- The leaf-hash selection switch inside `BuildMerkleTreeStore`
(merkle.go lines 196-207): in witness mode slot 0 takes `hash.ZeroHash` and
the other slots take the witness-inclusive hash; otherwise the plain hash. -/
def leafVal (witness : Bool) (i : Nat) (tx : Tx) : Hash :=
  if witness && i == 0 then 0
  else if witness then tx.txHashFull
  else tx.txHash

/-- The population loop `for i, tx := range transactions` of
`BuildMerkleTreeStore` (merkle.go lines 196-207): writes leaf `i` into
slot `i` of the backing array. -/
def fillLeaves (witness : Bool) : List Tx → List (Option Hash) → Nat → List (Option Hash)
  | [], m, _ => m
  | tx :: rest, m, i =>
      fillLeaves witness rest (m.set i (some (leafVal witness i tx))) (i + 1)

/-- The `switch` inside the combining loop of `BuildMerkleTreeStore`
(merkle.go lines 213-229): no left child → nil parent; no right child →
parent `H(left‖left)`; otherwise `H(left‖right)`. -/
def parentSwitch (H : Hash → Hash → Hash) : Option Hash → Option Hash → Option Hash
  | none, _ => none
  | some l, none => some (H l l)
  | some l, some r => some (H l r)

/-- The combining loop of `BuildMerkleTreeStore` (merkle.go lines 212-231).
One `steps` unit is one `i += 2` iteration: read slots `i` and `i+1`, write
the parent into slot `offset`, advance both. -/
def merkleLoop (H : Hash → Hash → Hash) :
    List (Option Hash) → Nat → Nat → Nat → List (Option Hash)
  | m, _, _, 0 => m
  | m, i, offset, steps + 1 =>
      merkleLoop H (m.set offset (parentSwitch H (m.getD i none) (m.getD (i + 1) none)))
        (i + 2) (offset + 1) steps

/-- `BuildMerkleTreeStore` (merkle.go lines 180-234), parametric in the
combining hash `H` (`HashMerkleBranches`).  The Go loop
`for i := 0; i < arraySize-1; i += 2` performs `(arraySize-1)/2` iterations
(`arraySize - 1` is even). -/
def BuildMerkleTreeStore (H : Hash → Hash → Hash) (transactions : List Tx)
    (witness : Bool) : List (Option Hash) :=
  if transactions.length = 0 then [some 0]
  else
    let nextPoT := nextPowerOfTwo transactions.length
    let arraySize := nextPoT * 2 - 1
    let merkles := List.replicate arraySize (none : Option Hash)
    let merkles := fillLeaves witness transactions merkles 0
    merkleLoop H merkles 0 nextPoT ((arraySize - 1) / 2)

/-! ### Reference (spec-side) recursive pairing

These definitions follow the specification's words ("if the left child is
absent, the parent is absent; if only the right child is absent, the parent is
`H(left ‖ left)`; otherwise the parent is `H(left ‖ right)`"), to be compared
with the array computation above. -/

/-- Modelled from the spec: the parent of one pair of optional children. -/
def refCombine (H : Hash → Hash → Hash) : Option Hash → Option Hash → Option Hash
  | none, _ => none
  | some l, none => some (H l l)
  | some l, some r => some (H l r)

/-- Modelled from the spec: one level of the recursive reference pairing,
pairing `(2i, 2i+1)` left to right. -/
def refPairUp (H : Hash → Hash → Hash) : List (Option Hash) → List (Option Hash)
  | x :: y :: rest => refCombine H x y :: refPairUp H rest
  | _ => []

lemma refPairUp_length (H : Hash → Hash → Hash) :
    ∀ l : List (Option Hash), (refPairUp H l).length = l.length / 2
  | [] => by simp [refPairUp]
  | [_] => by simp [refPairUp]
  | _ :: _ :: rest => by
      simp [refPairUp, refPairUp_length H rest]
      omega

/-- Modelled from the spec: the root of the recursive reference pairing —
pair up levels until a single node remains. -/
def refRoot (H : Hash → Hash → Hash) (level : List (Option Hash)) : Option Hash :=
  match level with
  | [] => none
  | [x] => x
  | x :: y :: rest => refRoot H (refPairUp H (x :: y :: rest))
termination_by level.length
decreasing_by
  simp [refPairUp, refPairUp_length]
  omega

/-- The leaf hashes of a transaction list starting at slot `i` (with the
witness-mode substitution of `leafVal`). -/
def leafList (witness : Bool) : Nat → List Tx → List Hash
  | _, [] => []
  | i, tx :: rest => leafVal witness i tx :: leafList witness (i + 1) rest

lemma leafList_length (witness : Bool) :
    ∀ (i : Nat) (txs : List Tx), (leafList witness i txs).length = txs.length
  | _, [] => rfl
  | i, _ :: rest => by simp [leafList, leafList_length witness (i + 1) rest]

/-- The leaf level of the tree: leaf hashes padded with absent slots up to the
next power of two. -/
def paddedLeaves (witness : Bool) (txs : List Tx) : List (Option Hash) :=
  (leafList witness 0 txs).map some ++
    List.replicate (nextPowerOfTwo txs.length - txs.length) none

/-- All levels of the tree, leaves first, concatenated — the linear-array
layout; `t` is the number of pairing passes. -/
def levelsFlat (H : Hash → Hash → Hash) : Nat → List (Option Hash) → List (Option Hash)
  | 0, cur => cur
  | t + 1, cur => cur ++ levelsFlat H t (refPairUp H cur)

/-- The source's parent `switch` is the spec's parent-formation rule. -/
lemma parentSwitch_eq_refCombine (H : Hash → Hash → Hash) (x y : Option Hash) :
    parentSwitch H x y = refCombine H x y := by
  cases x <;> cases y <;> rfl

lemma getD_append_self (pre : List (Option Hash)) (x : Option Hash)
    (rest : List (Option Hash)) : (pre ++ (x :: rest)).getD pre.length none = x := by
  rw [List.getD_append_right pre (x :: rest) none pre.length (le_refl _)]
  simp

lemma getD_append_succ (pre : List (Option Hash)) (x y : Option Hash)
    (rest : List (Option Hash)) :
    (pre ++ (x :: y :: rest)).getD (pre.length + 1) none = y := by
  rw [List.getD_append_right pre (x :: y :: rest) none (pre.length + 1) (by omega)]
  have h : pre.length + 1 - pre.length = 1 := by omega
  rw [h]
  simp

lemma set_after_two (pre a b : List (Option Hash)) (j0 v : Option Hash)
    (junk' : List (Option Hash)) :
    (pre ++ (a ++ (b ++ (j0 :: junk')))).set (pre.length + a.length + b.length) v
      = pre ++ (a ++ (b ++ (v :: junk'))) := by
  rw [List.set_append_right _ _ (by omega)]
  have h1 : pre.length + a.length + b.length - pre.length = a.length + b.length := by omega
  rw [h1, List.set_append_right _ _ (by omega)]
  have h2 : a.length + b.length - a.length = b.length := by omega
  rw [h2, List.set_append_right _ _ (le_refl _)]
  simp

/-- `fillLeaves` writes the leaf hashes over the prefix of the zeroed array. -/
lemma fillLeaves_append (w : Bool) (txs : List Tx) :
    ∀ (pre suf : List (Option Hash)), txs.length ≤ suf.length →
      fillLeaves w txs (pre ++ suf) pre.length
        = pre ++ ((leafList w pre.length txs).map some ++ suf.drop txs.length) := by
  induction txs with
  | nil => intro pre suf _; simp [fillLeaves, leafList]
  | cons tx rest ih =>
    intro pre suf h
    cases suf with
    | nil => simp at h
    | cons s0 suf' =>
      have hset : (pre ++ s0 :: suf').set pre.length (some (leafVal w pre.length tx))
          = (pre ++ [some (leafVal w pre.length tx)]) ++ suf' := by
        rw [List.set_append_right _ _ (le_refl _)]
        simp
      have h' : rest.length ≤ suf'.length := by
        simp only [List.length_cons] at h; omega
      have hrec := ih (pre ++ [some (leafVal w pre.length tx)]) suf' h'
      simp only [List.length_append, List.length_cons, List.length_nil, Nat.add_zero] at hrec
      calc fillLeaves w (tx :: rest) (pre ++ s0 :: suf') pre.length
          = fillLeaves w rest ((pre ++ s0 :: suf').set pre.length
              (some (leafVal w pre.length tx))) (pre.length + 1) := by
            simp only [fillLeaves]
        _ = fillLeaves w rest ((pre ++ [some (leafVal w pre.length tx)]) ++ suf')
              (pre.length + 1) := by rw [hset]
        _ = (pre ++ [some (leafVal w pre.length tx)])
              ++ ((leafList w (pre.length + 1) rest).map some ++ suf'.drop rest.length) := hrec
        _ = pre ++ ((leafList w pre.length (tx :: rest)).map some
              ++ (s0 :: suf').drop (tx :: rest).length) := by
            simp [leafList, List.append_assoc]

/-- One full level pass of the combining loop: with the array shaped
`pre ++ cur ++ mid ++ junk`, reading the level `cur` (of even length `2L`)
and writing its `L` parents over the start of `junk`. -/
lemma merkleLoop_pass (H : Hash → Hash → Hash) (L : Nat) :
    ∀ (cur pre mid junk : List (Option Hash)) (steps i offset : Nat),
      cur.length = 2*L → L ≤ junk.length → i = pre.length →
      offset = pre.length + cur.length + mid.length →
      merkleLoop H (pre ++ (cur ++ (mid ++ junk))) i offset (L + steps)
        = merkleLoop H (pre ++ (cur ++ (mid ++ (refPairUp H cur ++ junk.drop L))))
            (pre.length + cur.length) (pre.length + cur.length + mid.length + L) steps := by
  induction L with
  | zero =>
    intro cur pre mid junk steps i offset hcur hjunk hi hoff
    have hnil : cur = [] := List.eq_nil_of_length_eq_zero (by omega)
    subst hnil hi hoff
    simp [refPairUp]
  | succ L ihL =>
    intro cur pre mid junk steps i offset hcur hjunk hi hoff
    match cur, hcur with
    | x :: y :: cur', hcur =>
      match junk, hjunk with
      | j0 :: junk', hjunk =>
        have hcur' : cur'.length = 2*L := by
          simp only [List.length_cons] at hcur; omega
        have hjunk' : L ≤ junk'.length := by
          simp only [List.length_cons] at hjunk; omega
        have hfuel : L + 1 + steps = (L + steps) + 1 := by omega
        rw [hfuel]
        simp only [merkleLoop]
        have harr : pre ++ ((x :: y :: cur') ++ (mid ++ (j0 :: junk')))
            = pre ++ (x :: y :: (cur' ++ (mid ++ (j0 :: junk')))) := by simp
        have hx : (pre ++ ((x :: y :: cur') ++ (mid ++ (j0 :: junk')))).getD i none = x := by
          rw [harr, hi]; exact getD_append_self pre x _
        have hy : (pre ++ ((x :: y :: cur') ++ (mid ++ (j0 :: junk')))).getD (i+1) none = y := by
          rw [harr, hi]; exact getD_append_succ pre x y _
        rw [hx, hy, parentSwitch_eq_refCombine]
        have harr2 : pre ++ ((x :: y :: cur') ++ (mid ++ (j0 :: junk')))
            = pre ++ ((x :: y :: cur') ++ (mid ++ (j0 :: junk'))) := rfl
        have hoff' : offset = pre.length + (x :: y :: cur').length + mid.length := by
          rw [hoff]
        have hset : (pre ++ ((x :: y :: cur') ++ (mid ++ (j0 :: junk')))).set offset
              (refCombine H x y)
            = pre ++ ((x :: y :: cur') ++ (mid ++ ((refCombine H x y) :: junk'))) := by
          rw [hoff']
          exact set_after_two pre (x :: y :: cur') mid j0 (refCombine H x y) junk'
        rw [hset]
        have hre : pre ++ ((x :: y :: cur') ++ (mid ++ ((refCombine H x y) :: junk')))
            = (pre ++ [x, y]) ++ (cur' ++ ((mid ++ [refCombine H x y]) ++ junk')) := by
          simp
        have hi2 : i + 2 = (pre ++ [x, y]).length := by
          rw [hi]; simp
        have hoff2 : offset + 1
            = (pre ++ [x, y]).length + cur'.length + (mid ++ [refCombine H x y]).length := by
          rw [hoff]; simp only [List.length_append, List.length_cons, List.length_nil]
          omega
        rw [hre]
        rw [ihL cur' (pre ++ [x, y]) (mid ++ [refCombine H x y]) junk' steps (i + 2)
          (offset + 1) hcur' hjunk' hi2 hoff2]
        have harr3 : (pre ++ [x, y]) ++ (cur' ++ ((mid ++ [refCombine H x y])
              ++ (refPairUp H cur' ++ junk'.drop L)))
            = pre ++ ((x :: y :: cur') ++ (mid ++ (refPairUp H (x :: y :: cur')
              ++ (j0 :: junk').drop (L+1)))) := by
          simp [refPairUp, refCombine]
        rw [harr3]
        have hidx1 : (pre ++ [x, y]).length + cur'.length
            = pre.length + (x :: y :: cur').length := by simp; omega
        have hidx2 : pre.length + (x :: y :: cur').length + (mid ++ [refCombine H x y]).length + L
            = pre.length + (x :: y :: cur').length + mid.length + (L + 1) := by
          simp; omega
        rw [hidx1, hidx2]

/-- Running the loop to completion lays out all levels after the prefix. -/
lemma merkleLoop_levels (H : Hash → Hash → Hash) :
    ∀ (t : Nat) (cur pre : List (Option Hash)), cur.length = 2^t →
      merkleLoop H (pre ++ (cur ++ List.replicate (2^t - 1) none)) pre.length
          (pre.length + 2^t) (2^t - 1)
        = pre ++ levelsFlat H t cur := by
  intro t
  induction t with
  | zero =>
    intro cur pre hcur
    simp [merkleLoop, levelsFlat]
  | succ t ih =>
    intro cur pre hcur
    have h2t : 1 ≤ 2^t := Nat.one_le_two_pow
    have hlen2 : cur.length = 2 * 2^t := by rw [hcur]; ring
    have hsteps : 2^(t+1) - 1 = 2^t + (2^t - 1) := by
      have : 2^(t+1) = 2 * 2^t := by ring
      omega
    have hjlen : 2^t ≤ (List.replicate (2^(t+1) - 1) (none : Option Hash)).length := by
      simp
      have : 2^(t+1) = 2 * 2^t := by ring
      omega
    have harr : pre ++ (cur ++ List.replicate (2^(t+1) - 1) none)
        = pre ++ (cur ++ ([] ++ List.replicate (2^(t+1) - 1) none)) := by simp
    have hoff : pre.length + 2^(t+1) = pre.length + cur.length + ([] : List (Option Hash)).length := by
      simp [hcur]
    rw [harr, hoff]
    nth_rewrite 2 [hsteps]
    rw [merkleLoop_pass H (2^t) cur pre [] (List.replicate (2^(t+1) - 1) none) (2^t - 1)
        pre.length _ hlen2 hjlen rfl rfl]
    have hdrop : (List.replicate (2^(t+1) - 1) (none : Option Hash)).drop (2^t)
        = List.replicate (2^t - 1) none := by
      rw [List.drop_replicate]
      congr 1
      have : 2^(t+1) = 2 * 2^t := by ring
      omega
    have harr2 : pre ++ (cur ++ ([] ++ (refPairUp H cur
          ++ (List.replicate (2^(t+1) - 1) (none : Option Hash)).drop (2^t))))
        = (pre ++ cur) ++ (refPairUp H cur ++ List.replicate (2^t - 1) none) := by
      rw [hdrop]; simp
    have hplen : (refPairUp H cur).length = 2^t := by
      rw [refPairUp_length, hlen2]; omega
    have hi : pre.length + cur.length = (pre ++ cur).length := by simp
    have ho : (pre ++ cur).length + ([] : List (Option Hash)).length + 2^t
        = (pre ++ cur).length + 2^t := by simp
    rw [harr2, hi, ho, ih (refPairUp H cur) (pre ++ cur) hplen]
    simp [levelsFlat]

lemma levelsFlat_length (H : Hash → Hash → Hash) :
    ∀ (t : Nat) (cur : List (Option Hash)), cur.length = 2^t →
      (levelsFlat H t cur).length = 2^(t+1) - 1 := by
  intro t
  induction t with
  | zero => intro cur hcur; simpa [levelsFlat] using hcur
  | succ t ih =>
    intro cur hcur
    have hplen : (refPairUp H cur).length = 2^t := by
      rw [refPairUp_length, hcur]
      have : 2^(t+1) = 2 * 2^t := by ring
      omega
    have h2t : 1 ≤ 2^t := Nat.one_le_two_pow
    have h1 : 2^(t+1) = 2 * 2^t := by ring
    have h2 : 2^(t+2) = 2 * 2^(t+1) := by ring
    simp [levelsFlat, hcur, ih (refPairUp H cur) hplen]
    omega

lemma levelsFlat_getLast (H : Hash → Hash → Hash) :
    ∀ (t : Nat) (cur : List (Option Hash)), cur.length = 2^t →
      (levelsFlat H t cur).getLast? = some (refRoot H cur) := by
  intro t
  induction t with
  | zero =>
    intro cur hcur
    match cur, hcur with
    | [x], _ => simp [levelsFlat, refRoot]
  | succ t ih =>
    intro cur hcur
    have hplen : (refPairUp H cur).length = 2^t := by
      rw [refPairUp_length, hcur]
      have : 2^(t+1) = 2 * 2^t := by ring
      omega
    have hrec := ih (refPairUp H cur) hplen
    have hne : levelsFlat H t (refPairUp H cur) ≠ [] := by
      intro hnil
      rw [hnil] at hrec
      simp at hrec
    have hcur2 : 2 ≤ cur.length := by
      rw [hcur]
      have : 2^(t+1) = 2 * 2^t := by ring
      have h2t : 1 ≤ 2^t := Nat.one_le_two_pow
      omega
    match cur, hcur2 with
    | x :: y :: rest, _ =>
      have hroot : refRoot H (x :: y :: rest) = refRoot H (refPairUp H (x :: y :: rest)) := by
        rw [refRoot]
      rw [levelsFlat, List.getLast?_append, hrec, hroot]
      simp

/-- The array computation of `BuildMerkleTreeStore` equals the flattened
level-by-level layout over the padded leaf level. -/
lemma buildMerkleTreeStore_eq_levelsFlat (H : Hash → Hash → Hash) (w : Bool)
    (txs : List Tx) (t : Nat) (h1 : 1 ≤ txs.length)
    (ht : nextPowerOfTwo txs.length = 2^t) :
    BuildMerkleTreeStore H txs w = levelsFlat H t (paddedLeaves w txs) := by
  have hle : txs.length ≤ 2^t := ht ▸ le_nextPowerOfTwo txs.length h1
  have h2t : 1 ≤ 2^t := Nat.one_le_two_pow
  have hne : ¬ txs.length = 0 := by omega
  have hfill := fillLeaves_append w txs [] (List.replicate (2^t * 2 - 1) none)
    (by simp; omega)
  simp only [List.nil_append, List.length_nil] at hfill
  have hdrop : (List.replicate (2^t * 2 - 1) (none : Option Hash)).drop txs.length
      = List.replicate (2^t - txs.length) none ++ List.replicate (2^t - 1) none := by
    rw [List.drop_replicate, ← List.replicate_add]
    congr 1
    omega
  have hpadlen : (paddedLeaves w txs).length = 2^t := by
    simp [paddedLeaves, leafList_length, ht]
    omega
  have hml := merkleLoop_levels H t (paddedLeaves w txs) [] hpadlen
  simp only [List.nil_append, List.length_nil, Nat.zero_add] at hml
  simp only [BuildMerkleTreeStore, hne, if_false, ht]
  have hsteps : (2^t * 2 - 1 - 1) / 2 = 2^t - 1 := by omega
  rw [hsteps, hfill, hdrop]
  have harr : (leafList w 0 txs).map some
        ++ (List.replicate (2^t - txs.length) (none : Option Hash)
          ++ List.replicate (2^t - 1) none)
      = paddedLeaves w txs ++ List.replicate (2^t - 1) none := by
    simp [paddedLeaves, ht, List.append_assoc]
  rw [harr, hml]

/-- C2: for every transaction list and witness flag, `BuildMerkleTreeStore`
returns an array of length `2*nextPowerOfTwo(n)-1` when `n > 0` and a
one-element array holding the zero hash when `n = 0`, and its last element is
the root of the spec's recursive reference pairing of the (padded) leaf
hashes. -/
theorem buildMerkleTreeStore_correct (H : Hash → Hash → Hash) (w : Bool) (txs : List Tx) :
    (BuildMerkleTreeStore H txs w).length
        = (if txs.length = 0 then 1 else 2 * nextPowerOfTwo txs.length - 1) ∧
    (BuildMerkleTreeStore H txs w).getLast?
        = some (if txs.length = 0 then some 0 else refRoot H (paddedLeaves w txs)) := by
  by_cases h0 : txs.length = 0
  · simp [BuildMerkleTreeStore, h0]
  · have h1 : 1 ≤ txs.length := by omega
    obtain ⟨t, ht⟩ := nextPowerOfTwo_pow txs.length h1
    have hle : txs.length ≤ 2^t := ht ▸ le_nextPowerOfTwo txs.length h1
    have hpadlen : (paddedLeaves w txs).length = 2^t := by
      simp [paddedLeaves, leafList_length, ht]
      omega
    have key := buildMerkleTreeStore_eq_levelsFlat H w txs t h1 ht
    have h2 : 2^(t+1) = 2 * 2^t := by ring
    constructor
    · rw [key, levelsFlat_length H t _ hpadlen, if_neg h0, ht]
      omega
    · rw [key, levelsFlat_getLast H t _ hpadlen, if_neg h0]

/-! ### `ValidateWitnessCommitment` (merkle.go lines 349-380) -/

/-- `HashMerkleBranches` (merkle.go lines 250-260): `hash.DoubleHashH` of the
64-byte concatenation of the two hashes.  `DH` abstracts `hash.DoubleHashH`
(byte list to hash) and `bytes` abstracts `Hash.Bytes()` (32-byte encoding). -/
def HashMerkleBranches (DH : List Nat → Hash) (bytes : Hash → List Nat)
    (left right : Hash) : Hash :=
  DH (bytes left ++ bytes right)

/-- The error results of `ValidateWitnessCommitment`, one constructor per
`return fmt.Errorf(...)` site.  The mismatch error carries the computed and
the embedded commitment, which the source formats into its message. -/
inductive WCError where
  | noTransactions
  | noInputs
  | noWitnessCommitment
  | mismatch (computed embedded : Hash)
  deriving DecidableEq, Repr

/-- `ValidateWitnessCommitment` (merkle.go lines 349-380).  Outer `none`
models the nil-pointer dereference of `witnessMerkleRoot` (shown unreachable
below); `some none` is success (`return nil`); `some (some e)` is error `e`. -/
def ValidateWitnessCommitment (DH : List Nat → Hash) (bytes : Hash → List Nat)
    (transactions : List Tx) : Option (Option WCError) :=
  match transactions with
  | [] => some (some .noTransactions)
  | coinbaseTx :: _ =>
    match coinbaseTx.txIn with
    | [] => some (some .noInputs)
    | txIn0 :: _ =>
      if txIn0.previousOutHash = 0 then some (some .noWitnessCommitment)
      else
        match (BuildMerkleTreeStore (HashMerkleBranches DH bytes) transactions
            true).getLast? with
        | none => none
        | some none => none
        | some (some root) =>
          let computedCommitment := DH (bytes root ++ txIn0.signScript)
          if computedCommitment ≠ txIn0.previousOutHash then
            some (some (.mismatch computedCommitment txIn0.previousOutHash))
          else some none

/-- Every level whose head is present pairs up to a level whose head is
present, hence the reference root of such a level is present. -/
lemma refRoot_isSome_of_head (H : Hash → Hash → Hash) :
    ∀ (t : Nat) (cur : List (Option Hash)), cur.length = 2^t →
      (∃ x, cur.head? = some (some x)) → ∃ r, refRoot H cur = some r := by
  intro t
  induction t with
  | zero =>
    intro cur hcur hhead
    match cur, hcur with
    | [c], _ =>
      obtain ⟨x, hx⟩ := hhead
      simp at hx
      exact ⟨x, by simp [refRoot, hx]⟩
  | succ t ih =>
    intro cur hcur hhead
    have hcur2 : 2 ≤ cur.length := by
      rw [hcur]
      have h2t : 1 ≤ 2^t := Nat.one_le_two_pow
      have : 2^(t+1) = 2 * 2^t := by ring
      omega
    match cur, hcur2 with
    | x :: y :: rest, _ =>
      obtain ⟨v, hv⟩ := hhead
      simp at hv
      subst hv
      have hplen : (refPairUp H (some v :: y :: rest)).length = 2^t := by
        rw [refPairUp_length]
        simp only [List.length_cons] at hcur ⊢
        have : 2^(t+1) = 2 * 2^t := by ring
        omega
      have hph : ∃ w, (refPairUp H (some v :: y :: rest)).head? = some (some w) := by
        cases y <;> simp [refPairUp, refCombine]
      obtain ⟨r, hr⟩ := ih (refPairUp H (some v :: y :: rest)) hplen hph
      exact ⟨r, by rw [refRoot]; exact hr⟩

/-- For a nonempty transaction list the witness-mode tree root slot is a
present hash (slot 0 of the leaf level is the zero-hash commitment
placeholder, never nil). -/
lemma witness_root_isSome (H : Hash → Hash → Hash) (txs : List Tx)
    (h : txs ≠ []) :
    ∃ r : Hash, (BuildMerkleTreeStore H txs true).getLast? = some (some r) := by
  have h1 : 1 ≤ txs.length := by
    cases txs with
    | nil => exact absurd rfl h
    | cons a l => simp
  obtain ⟨t, ht⟩ := nextPowerOfTwo_pow txs.length h1
  have hpadlen : (paddedLeaves true txs).length = 2^t := by
    have hle : txs.length ≤ 2^t := ht ▸ le_nextPowerOfTwo txs.length h1
    simp [paddedLeaves, leafList_length, ht]
    omega
  have hhead : ∃ x, (paddedLeaves true txs).head? = some (some x) := by
    cases txs with
    | nil => exact absurd rfl h
    | cons tx rest =>
      exact ⟨0, by simp [paddedLeaves, leafList, leafVal]⟩
  obtain ⟨r, hr⟩ := refRoot_isSome_of_head H t (paddedLeaves true txs) hpadlen hhead
  have hlast := (buildMerkleTreeStore_correct H true txs).2
  rw [if_neg (by omega)] at hlast
  exact ⟨r, by rw [hlast, hr]⟩

/-- C3: `ValidateWitnessCommitment` never dereferences a nil root, succeeds
exactly when the block is nonempty, the coinbase has an input, the embedded
commitment is nonzero, and the recomputed commitment (double-hash of witness
Merkle root plus coinbase signature script) equals the embedded one; and a
mismatch error reports both the computed and the embedded commitment. -/
theorem validateWitnessCommitment_correct (DH : List Nat → Hash)
    (bytes : Hash → List Nat) (txs : List Tx) :
    ∃ res : Option WCError,
      ValidateWitnessCommitment DH bytes txs = some res ∧
      (res = none ↔
        ∃ cb rest t0 ins root,
          txs = cb :: rest ∧ cb.txIn = t0 :: ins ∧ t0.previousOutHash ≠ 0 ∧
          (BuildMerkleTreeStore (HashMerkleBranches DH bytes) txs true).getLast?
            = some (some root) ∧
          DH (bytes root ++ t0.signScript) = t0.previousOutHash) ∧
      (∀ c e, res = some (.mismatch c e) →
        ∃ cb rest t0 ins root,
          txs = cb :: rest ∧ cb.txIn = t0 :: ins ∧
          (BuildMerkleTreeStore (HashMerkleBranches DH bytes) txs true).getLast?
            = some (some root) ∧
          c = DH (bytes root ++ t0.signScript) ∧ e = t0.previousOutHash ∧ c ≠ e) := by
  match txs with
  | [] =>
    refine ⟨some .noTransactions, by simp [ValidateWitnessCommitment], ?_, ?_⟩
    · constructor
      · intro h; simp at h
      · rintro ⟨cb, rest, t0, ins, root, h, _⟩
        simp at h
    · intro c e h; simp at h
  | cb :: rest =>
    match hin : cb.txIn with
    | [] =>
      refine ⟨some .noInputs, by simp [ValidateWitnessCommitment, hin], ?_, ?_⟩
      · constructor
        · intro h; simp at h
        · rintro ⟨cb', rest', t0, ins, root, heq, hins, _⟩
          injection heq with h1 h2
          subst h1
          rw [hin] at hins
          simp at hins
      · intro c e h; simp at h
    | t0 :: ins =>
      by_cases h0 : t0.previousOutHash = 0
      · refine ⟨some .noWitnessCommitment,
          by simp [ValidateWitnessCommitment, hin, h0], ?_, ?_⟩
        · constructor
          · intro h; simp at h
          · rintro ⟨cb', rest', t0', ins', root, heq, hins, hnz, _⟩
            injection heq with h1 h2
            subst h1
            rw [hin] at hins
            injection hins with h3 h4
            subst h3
            exact absurd h0 hnz
        · intro c e h; simp at h
      · obtain ⟨root, hroot⟩ :=
          witness_root_isSome (HashMerkleBranches DH bytes) (cb :: rest) (by simp)
        by_cases hc : DH (bytes root ++ t0.signScript) = t0.previousOutHash
        · refine ⟨none, ?_, ?_, ?_⟩
          · simp [ValidateWitnessCommitment, hin, h0, hroot, hc]
          · constructor
            · intro _
              exact ⟨cb, rest, t0, ins, root, rfl, hin, h0, hroot, hc⟩
            · intro _; rfl
          · intro c e h; simp at h
        · refine ⟨some (.mismatch (DH (bytes root ++ t0.signScript))
              t0.previousOutHash), ?_, ?_, ?_⟩
          · simp [ValidateWitnessCommitment, hin, h0, hroot, hc]
          · constructor
            · intro h; simp at h
            · rintro ⟨cb', rest', t0', ins', root', heq, hins, hnz, hroot', hchk⟩
              injection heq with h1 h2
              subst h1
              rw [hin] at hins
              injection hins with h3 h4
              subst h3
              rw [hroot] at hroot'
              injection hroot' with h5
              injection h5 with h6
              subst h6
              exact absurd hchk hc
          · intro c e h
            injection h with h'
            injection h' with hce hee
            refine ⟨cb, rest, t0, ins, root, rfl, hin, hroot, hce.symm, hee.symm, ?_⟩
            rw [← hce, ← hee]
            exact hc

/-- A single-transaction witness-mode tree is `[some 0]`: the sole slot is
the zero-hash commitment placeholder, and the combining loop runs 0 steps. -/
lemma buildMerkleTreeStore_one (H : Hash → Hash → Hash) (u : Tx) :
    BuildMerkleTreeStore H [u] true = [some 0] := by
  simp [BuildMerkleTreeStore, nextPowerOfTwo, fillLeaves, merkleLoop, leafVal, List.set]

/-- C10: for a block with exactly one transaction, the witness-mode Merkle
tree is the one-element array holding the zero hash, regardless of the
transaction's contents; hence the commitment `ValidateWitnessCommitment`
computes depends only on the coinbase's first input, not on the transaction
data. -/
theorem singleTxWitnessCommitment (H : Hash → Hash → Hash)
    (DH : List Nat → Hash) (bytes : Hash → List Nat) (tx tx' : Tx) :
    BuildMerkleTreeStore H [tx] true = [some 0] ∧
    (tx.txIn.head? = tx'.txIn.head? →
      ValidateWitnessCommitment DH bytes [tx]
        = ValidateWitnessCommitment DH bytes [tx']) := by
  refine ⟨buildMerkleTreeStore_one H tx, ?_⟩
  intro hhead
  cases htx : tx.txIn with
  | nil =>
    have h2 : tx'.txIn = [] := by
      rw [htx] at hhead
      cases h' : tx'.txIn with
      | nil => rfl
      | cons a l => rw [h'] at hhead; simp at hhead
    simp [ValidateWitnessCommitment, htx, h2]
  | cons t0 ins =>
    obtain ⟨t0', ins', h2⟩ : ∃ a l, tx'.txIn = a :: l := by
      cases h' : tx'.txIn with
      | nil => rw [htx, h'] at hhead; simp at hhead
      | cons a l => exact ⟨a, l, rfl⟩
    have ht0 : t0' = t0 := by
      rw [htx, h2] at hhead
      simp at hhead
      exact hhead.symm
    subst ht0
    simp only [ValidateWitnessCommitment, htx, h2,
      buildMerkleTreeStore_one (HashMerkleBranches DH bytes)]


/-- C10 witness: two single-transaction blocks differing in transaction data
but sharing the coinbase first input validate identically. -/
theorem singleTxWitnessCommitment_witness :
    BuildMerkleTreeStore (fun a b => a + b) [Tx.mk 1 2 [TxIn.mk 5 [7]]] true = [some 0] ∧
    ValidateWitnessCommitment (fun l => l.length) (fun h => [h])
        [Tx.mk 1 2 [TxIn.mk 5 [7]]]
      = ValidateWitnessCommitment (fun l => l.length) (fun h => [h])
        [Tx.mk 3 9 [TxIn.mk 5 [7]]] :=
  ⟨(singleTxWitnessCommitment (fun a b => a + b) (fun l => l.length) (fun h => [h])
      (Tx.mk 1 2 [TxIn.mk 5 [7]]) (Tx.mk 3 9 [TxIn.mk 5 [7]])).1,
   (singleTxWitnessCommitment (fun a b => a + b) (fun l => l.length) (fun h => [h])
      (Tx.mk 1 2 [TxIn.mk 5 [7]]) (Tx.mk 3 9 [TxIn.mk 5 [7]])).2 rfl⟩


/-! ## BlockLocationIndex: `TxIndex.Init` (`services/index/txindex.go`) -/

/-- The forward scan of `TxIndex.Init` (txindex.go lines 322-334): starting at
`testBlockID = 1` with `increment = 100000`, probe `dbFetchBlockHashByID`
(abstracted as the predicate `present` on block ids); the last successful
probe is `highestKnown`, the first failing probe becomes `nextUnknown`.
`testBlockID` is a `uint32`, so the increment wraps modulo `2^32`; the
unbounded `for` loop is given explicit `fuel`, with `none` meaning it did not
terminate within that fuel. -/
def initForwardScan (present : Nat → Bool) : Nat → Nat → Nat → Option (Nat × Nat)
  | 0, _, _ => none
  | fuel + 1, testBlockID, highestKnown =>
      if present testBlockID then
        initForwardScan present fuel ((testBlockID + 100000) % 4294967296) testBlockID
      else
        some (highestKnown, testBlockID)

/-- The binary search of `TxIndex.Init` (txindex.go lines 345-358): probe the
midpoint `(highestKnown + nextUnknown) / 2` (computed in `uint32`), move
`highestKnown` up on success or `nextUnknown` down on failure, and stop when
`highestKnown + 1 == nextUnknown`, returning `highestKnown`. -/
def initBinarySearch (present : Nat → Bool) : Nat → Nat → Nat → Option Nat
  | 0, _, _ => none
  | fuel + 1, highestKnown, nextUnknown =>
      let testBlockID := ((highestKnown + nextUnknown) % 4294967296) / 2
      let hk := if present testBlockID then testBlockID else highestKnown
      let nu := if present testBlockID then nextUnknown else testBlockID
      if (hk + 1) % 4294967296 = nu then some hk
      else initBinarySearch present fuel hk nu

/-- `TxIndex.Init` (txindex.go lines 313-369): bootstrap of the in-memory
`curBlockID` from the locator→hash namespace.  `present id` abstracts
"`dbFetchBlockHashByID dbTx id` succeeds".  The counter starts at 0; if the
very first probe fails (`nextUnknown == 1`) Init returns with the counter
still 0, otherwise the binary search result is stored.  `none` = one of the
unbounded loops did not terminate within `fuel`. -/
def txIndexInit (present : Nat → Bool) (fuel : Nat) : Option Nat :=
  match initForwardScan present fuel 1 0 with
  | none => none
  | some (highestKnown, nextUnknown) =>
      if nextUnknown = 1 then some 0
      else initBinarySearch present fuel highestKnown nextUnknown

/-- A locator→hash namespace containing entries for exactly the locators
`1..K` and no others. -/
def presentUpTo (K : Nat) : Nat → Bool := fun v => decide (1 ≤ v ∧ v ≤ K)

/-- Forward-scan correctness: probing `1, 1+100000, 1+200000, …` over a
namespace populated on exactly `1..K` ends at the first probe past `K`,
with `highestKnown` the probe `100000` below it (given enough fuel; no
`uint32` wrap happens for `K ≤ 2147433647`). -/
lemma initForwardScan_correct (K : Nat) (hK : K ≤ 2147433647) :
    ∀ (fuel test h : Nat), 1 ≤ fuel → 1 ≤ test → test ≤ K + 100000 →
      K + 2 ≤ fuel + test →
      (test = 1 ∧ h = 0 ∨ (h + 100000 = test ∧ 1 ≤ h ∧ h ≤ K)) →
      ∃ h2 n2, initForwardScan (presentUpTo K) fuel test h = some (h2, n2) ∧
        K < n2 ∧ n2 ≤ K + 100000 ∧
        (n2 = 1 ∧ h2 = 0 ∨ (h2 + 100000 = n2 ∧ 1 ≤ h2 ∧ h2 ≤ K)) := by
  intro fuel
  induction fuel with
  | zero => intro test h hf _ _ _ _; omega
  | succ fuel ih =>
    intro test h _ htest1 htestle hfuel hinv
    by_cases htK : test ≤ K
    · have hp : presentUpTo K test = true := by
        simp [presentUpTo]; omega
      have hmod : (test + 100000) % 4294967296 = test + 100000 :=
        Nat.mod_eq_of_lt (by omega)
      have step : initForwardScan (presentUpTo K) (fuel+1) test h
          = initForwardScan (presentUpTo K) fuel (test + 100000) test := by
        simp [initForwardScan, hp, hmod]
      rw [step]
      exact ih (test + 100000) test (by omega) (by omega) (by omega) (by omega)
        (Or.inr ⟨rfl, by omega, htK⟩)
    · have hp : presentUpTo K test = false := by
        simp [presentUpTo]; omega
      have step : initForwardScan (presentUpTo K) (fuel+1) test h = some (h, test) := by
        simp [initForwardScan, hp]
      exact ⟨h, test, step, by omega, htestle, hinv⟩

/-- Binary-search correctness over a namespace populated on exactly `1..K`:
from an invariant state `highestKnown ≤ K < nextUnknown` the loop returns
`K` (given fuel at least the interval width; sums stay below `2^32`). -/
lemma initBinarySearch_correct (K : Nat) :
    ∀ (fuel h n : Nat), 1 ≤ h → h ≤ K → K < n → n ≤ h + fuel →
      K + n ≤ 4294967295 →
      initBinarySearch (presentUpTo K) fuel h n = some K := by
  intro fuel
  induction fuel with
  | zero => intro h n _ _ _ _ _; omega
  | succ fuel ih =>
    intro h n hh1 hhK hKn hfuel hsum
    have hmod : (h + n) % 4294967296 = h + n := Nat.mod_eq_of_lt (by omega)
    have ht1 : 1 ≤ (h + n) / 2 := by omega
    by_cases htK : (h + n) / 2 ≤ K
    · have hp : presentUpTo K ((h + n) / 2) = true := by
        simp [presentUpTo]; omega
      have hmod2 : ((h + n) / 2 + 1) % 4294967296 = (h + n) / 2 + 1 :=
        Nat.mod_eq_of_lt (by omega)
      have step : initBinarySearch (presentUpTo K) (fuel+1) h n
          = if (h + n) / 2 + 1 = n then some ((h + n) / 2)
            else initBinarySearch (presentUpTo K) fuel ((h + n) / 2) n := by
        simp [initBinarySearch, hmod, hp, hmod2]
      rw [step]
      by_cases hstop : (h + n) / 2 + 1 = n
      · rw [if_pos hstop]
        have heq : (h + n) / 2 = K := by omega
        rw [heq]
      · rw [if_neg hstop]
        exact ih ((h + n) / 2) n ht1 htK hKn (by omega) hsum
    · have hp : presentUpTo K ((h + n) / 2) = false := by
        simp [presentUpTo]; omega
      have hmod2 : (h + 1) % 4294967296 = h + 1 := Nat.mod_eq_of_lt (by omega)
      have step : initBinarySearch (presentUpTo K) (fuel+1) h n
          = if h + 1 = (h + n) / 2 then some h
            else initBinarySearch (presentUpTo K) fuel h ((h + n) / 2) := by
        simp [initBinarySearch, hmod, hp, hmod2]
      rw [step]
      by_cases hstop : h + 1 = (h + n) / 2
      · rw [if_pos hstop]
        have heq : h = K := by omega
        rw [heq]
      · rw [if_neg hstop]
        exact ih h ((h + n) / 2) hh1 hhK (by omega) (by omega) (by omega)


/-- C1 (amended): for every `K ≤ 2147433647`, over a locator→hash namespace
populated on exactly `1..K`, `TxIndex.Init` terminates (within fuel
`K + 100002`, and any larger fuel) and sets `curBlockID = K`; for `K = 0`
the first probe fails and it returns immediately with counter 0. -/
theorem txIndexInit_correct (K fuel : Nat) (hK : K ≤ 2147433647)
    (hfuel : K + 100002 ≤ fuel) :
    txIndexInit (presentUpTo K) fuel = some K := by
  unfold txIndexInit
  obtain ⟨h2, n2, hscan, hn2K, hn2le, hinv⟩ :=
    initForwardScan_correct K hK fuel 1 0 (by omega) (by omega) (by omega)
      (by omega) (Or.inl ⟨rfl, rfl⟩)
  rw [hscan]
  show (if n2 = 1 then some 0 else initBinarySearch (presentUpTo K) fuel h2 n2) = some K
  by_cases hn1 : n2 = 1
  · rw [if_pos hn1]
    have : K = 0 := by omega
    rw [this]
  · rw [if_neg hn1]
    rcases hinv with ⟨h1', _⟩ | ⟨hsum, hh1, hhK⟩
    · exact absurd h1' hn1
    · exact initBinarySearch_correct K fuel h2 n2 hh1 hhK hn2K (by omega) (by omega)

/-- C1 witness: the documented sample count `K = 5000000` recovers counter
`5000000`. -/
theorem txIndexInit_correct_witness :
    txIndexInit (presentUpTo 5000000) 5100002 = some 5000000 :=
  txIndexInit_correct 5000000 5100002 (by decide) (by decide)

/-- With all `2^32 - 1` locators populated, every forward-scan probe is
`≡ 1 (mod 32)` (since `32 ∣ 100000` and `32 ∣ 2^32`), hence never `0` and
never absent: the scan never terminates, for any fuel. -/
lemma initForwardScan_wraparound_none :
    ∀ (fuel test h : Nat), test % 32 = 1 → test < 4294967296 →
      initForwardScan (presentUpTo 4294967295) fuel test h = none := by
  intro fuel
  induction fuel with
  | zero => intro test h _ _; rfl
  | succ fuel ih =>
    intro test h hmod32 hlt
    have hp : presentUpTo 4294967295 test = true := by
      simp [presentUpTo]; omega
    have step : initForwardScan (presentUpTo 4294967295) (fuel+1) test h
        = initForwardScan (presentUpTo 4294967295) fuel
            ((test + 100000) % 4294967296) test := by
      simp [initForwardScan, hp]
    rw [step]
    have hdvd : (32 : Nat) ∣ 4294967296 := by decide
    have hmod32' : ((test + 100000) % 4294967296) % 32 = 1 := by
      rw [Nat.mod_mod_of_dvd _ hdvd]
      omega
    exact ih ((test + 100000) % 4294967296) test hmod32'
      (Nat.mod_lt _ (by omega))

/-- A scan that never terminates makes `Init` never terminate. -/
lemma txIndexInit_none_of_scan_none (present : Nat → Bool) (fuel : Nat)
    (h : initForwardScan present fuel 1 0 = none) :
    txIndexInit present fuel = none := by
  unfold txIndexInit
  rw [h]

/-- C1 counterexample: at `K = 2^32 - 1` (all `uint32` locators present) the
claim "`Init` sets the counter to `K`" fails — the forward scan wraps around
`uint32` and never observes an absent probe, so `Init` does not terminate
(shown here at the canonical fuel `K + 100002`; the helper lemma above gives
it for every fuel). -/
theorem txIndexInit_wraparound_counterexample :
    txIndexInit (presentUpTo 4294967295) 4295067297 = none ∧
    txIndexInit (presentUpTo 4294967295) 4295067297 ≠ some 4294967295 := by
  have h : txIndexInit (presentUpTo 4294967295) 4295067297 = none :=
    txIndexInit_none_of_scan_none _ _
      (initForwardScan_wraparound_none 4295067297 1 0 (by decide) (by decide))
  exact ⟨h, by rw [h]; simp⟩


/-! ## BlockLocationIndex: persisted state, connect/disconnect, lookup
(`services/index/txindex.go`) -/

/-- Pointwise update of a bucket (`Put k v` = `upd f k (some v)`,
`Delete k` = `upd f k none`). -/
def updFun {α : Type} (f : Nat → Option α) (k : Nat) (v : Option α) :
    Nat → Option α :=
  fun q => if q = k then v else f q

/-- `byteOrder.PutUint32`: big-endian 4-byte encoding of a `uint32`. -/
def putUint32 (x : Nat) : List Nat :=
  [x % 4294967296 / 16777216, x % 16777216 / 65536, x % 65536 / 256, x % 256]

/-- `byteOrder.Uint32`: big-endian 4-byte decode. -/
def getUint32 (bs : List Nat) : Nat :=
  bs.getD 0 0 * 16777216 + bs.getD 1 0 * 65536 + bs.getD 2 0 * 256 + bs.getD 3 0

/-- The state of the transaction index: the three buckets of txindex.go
(tx hash → 12-byte location record; block hash → block id; block id →
block hash — block ids and hashes are stored as their decoded numeric
values, the 4-byte encoding being a bijection on `uint32`) together with the
in-memory `TxIndex.curBlockID`. -/
structure TxIndexState where
  txIndex : Nat → Option (List Nat)
  idByHash : Nat → Option Nat
  hashByID : Nat → Option Nat
  curBlockID : Nat

/-- One transaction of a serialized block, as seen by the index: its hash and
its `types.TxLoc` (byte offset and length inside the block). -/
structure BlockTx where
  hash : Nat
  txStart : Nat
  txLen : Nat
  deriving DecidableEq, Repr

/-- A serialized block, as seen by the index. -/
structure Block where
  hash : Nat
  txs : List BlockTx
  deriving DecidableEq, Repr

/-- `putTxIndexEntry` (txindex.go lines 171-175): `<block id><start><len>`,
12 bytes, each field serialized with `PutUint32` (Go converts the `int`
locations with `uint32(...)`, hence the mod in `putUint32`). -/
def putTxIndexEntry (blockID : Nat) (t : BlockTx) : List Nat :=
  putUint32 blockID ++ putUint32 t.txStart ++ putUint32 t.txLen

/-- `dbPutBlockIDIndexEntry` (txindex.go lines 97-112): writes both
directions of the block-hash↔id mapping. -/
def dbPutBlockIDIndexEntry (s : TxIndexState) (hash id : Nat) : TxIndexState :=
  { s with idByHash := updFun s.idByHash hash (some id),
           hashByID := updFun s.hashByID id (some hash) }

/-- `dbRemoveBlockIDIndexEntry` (txindex.go lines 116-131): when the hash has
no id entry it returns `nil` **without removing anything**; otherwise it
deletes both directions. -/
def dbRemoveBlockIDIndexEntry (s : TxIndexState) (hash : Nat) : TxIndexState :=
  match s.idByHash hash with
  | none => s
  | some id =>
      { s with idByHash := updFun s.idByHash hash none,
               hashByID := updFun s.hashByID id none }

/-- The `addEntries` loop of `dbAddTxIndexEntries` (txindex.go lines
228-264): one `dbPutTxIndexEntry` per transaction (the pre-sized shared
serialization buffer of the source is an allocation optimization with the
same per-entry writes). -/
def addEntriesLoop (blockID : Nat) : TxIndexState → List BlockTx → TxIndexState
  | s, [] => s
  | s, t :: rest =>
      addEntriesLoop blockID
        { s with
          txIndex := updFun s.txIndex t.hash (some (putTxIndexEntry blockID t)) } rest

/-- `dbRemoveTxIndexEntry` (txindex.go lines 268-277): an absent (or empty)
record is an error ("can't remove non-existent transaction"), otherwise the
record is deleted. -/
def dbRemoveTxIndexEntry (s : TxIndexState) (txHash : Nat) :
    Except Unit TxIndexState :=
  if ((s.txIndex txHash).getD []).length = 0 then .error ()
  else .ok { s with txIndex := updFun s.txIndex txHash none }

/-- The `removeEntries` loop of `dbRemoveTxIndexEntries` (txindex.go lines
282-296): remove each transaction in order, stopping at the first error. -/
def removeEntriesLoop : TxIndexState → List BlockTx → Except Unit TxIndexState
  | s, [] => .ok s
  | s, t :: rest =>
      match dbRemoveTxIndexEntry s t.hash with
      | .error e => .error e
      | .ok s2 => removeEntriesLoop s2 rest

/-- `TxIndex.ConnectBlock` (txindex.go lines 407-423): new block id
`curBlockID + 1` (`uint32` increment), add all transaction location entries,
write the block-id mapping, store the new counter. -/
def ConnectBlock (s : TxIndexState) (b : Block) : TxIndexState :=
  let newBlockID := (s.curBlockID + 1) % 4294967296
  let s1 := addEntriesLoop newBlockID s b.txs
  let s2 := dbPutBlockIDIndexEntry s1 b.hash newBlockID
  { s2 with curBlockID := newBlockID }

/-- `TxIndex.DisconnectBlock` (txindex.go lines 430-443): remove every
transaction's entry (first failure aborts), remove the block-id mapping,
decrement the counter (`uint32` decrement). -/
def DisconnectBlock (s : TxIndexState) (b : Block) : Except Unit TxIndexState :=
  match removeEntriesLoop s b.txs with
  | .error e => .error e
  | .ok s1 =>
      let s2 := dbRemoveBlockIDIndexEntry s1 b.hash
      .ok { s2 with curBlockID := (s2.curBlockID + 4294967295) % 4294967296 }

/-- `database.BlockRegion`. -/
structure BlockRegion where
  hash : Nat
  offset : Nat
  len : Nat
  deriving DecidableEq, Repr

/-- The corruption error class of `dbFetchTxIndexEntry`, naming the offending
transaction hash (`database.ErrCorruption`). -/
inductive FetchError where
  | corruption (txHash : Nat)
  deriving DecidableEq, Repr

/-- `dbFetchTxIndexEntry` (txindex.go lines 189-223), which
`TxIndex.TxBlockRegion` (lines 451-459) calls inside a read-only view:
a record of length 0 (absent key) gives `(nil, nil)`; a shorter-than-12-byte
record gives a corruption error naming the hash; a locator with no
id→hash entry gives a corruption error naming the hash; otherwise the
decoded block region. -/
def dbFetchTxIndexEntry (s : TxIndexState) (txHash : Nat) :
    Except FetchError (Option BlockRegion) :=
  let serializedData := (s.txIndex txHash).getD []
  if serializedData.length = 0 then .ok none
  else if serializedData.length < 12 then .error (.corruption txHash)
  else
    match s.hashByID (getUint32 (serializedData.take 4)) with
    | none => .error (.corruption txHash)
    | some h =>
        .ok (some { hash := h,
                    offset := getUint32 ((serializedData.drop 4).take 4),
                    len := getUint32 ((serializedData.drop 8).take 4) })

/-- `Except.isOk` as a plain boolean discriminator. -/
def exceptIsOk : Except Unit TxIndexState → Bool
  | .ok _ => true
  | .error _ => false


/-- C5 (amended): `dbFetchTxIndexEntry` / `TxBlockRegion` returns a nil
region with nil error when no record is stored for the hash; a **nonempty**
record shorter than 12 bytes yields a corruption error naming the hash; a
(≥ 12 byte) record whose 4-byte locator has no entry in the locator→hash
namespace yields a corruption error naming the hash.  (A stored *empty*
record is indistinguishable from absence to the code — see the
counterexample.) -/
theorem dbFetchTxIndexEntry_classes (s : TxIndexState) (h : Nat) :
    (s.txIndex h = none → dbFetchTxIndexEntry s h = .ok none) ∧
    (∀ data, s.txIndex h = some data → data ≠ [] → data.length < 12 →
      dbFetchTxIndexEntry s h = .error (.corruption h)) ∧
    (∀ data, s.txIndex h = some data → 12 ≤ data.length →
      s.hashByID (getUint32 (data.take 4)) = none →
      dbFetchTxIndexEntry s h = .error (.corruption h)) := by
  refine ⟨?_, ?_, ?_⟩
  · intro habs
    simp [dbFetchTxIndexEntry, habs]
  · intro data hdata hne hlen
    have hlen0 : data.length ≠ 0 := by
      cases data with
      | nil => exact absurd rfl hne
      | cons a l => simp
    simp [dbFetchTxIndexEntry, hdata, hlen0, hlen]
  · intro data hdata hlen hdangling
    have hlen0 : ¬ data.length = 0 := by omega
    have hlen12 : ¬ data.length < 12 := by omega
    simp [dbFetchTxIndexEntry, hdata, hlen0, hlen12, hdangling]

/-- C5 witness: a 3-byte record is reported as corruption naming the hash;
a dangling locator likewise. -/
theorem dbFetchTxIndexEntry_classes_witness :
    dbFetchTxIndexEntry
        { txIndex := fun k => if k = 7 then some [1, 2, 3] else none,
          idByHash := fun _ => none, hashByID := fun _ => none,
          curBlockID := 0 } 7
      = .error (.corruption 7) ∧
    dbFetchTxIndexEntry
        { txIndex := fun k => if k = 8 then some (putTxIndexEntry 1 (BlockTx.mk 8 0 50)) else none,
          idByHash := fun _ => none, hashByID := fun _ => none,
          curBlockID := 0 } 8
      = .error (.corruption 8) :=
  ⟨(dbFetchTxIndexEntry_classes _ 7).2.1 [1, 2, 3] rfl (by decide) (by decide),
   (dbFetchTxIndexEntry_classes _ 8).2.2 (putTxIndexEntry 1 (BlockTx.mk 8 0 50))
     rfl (by decide) rfl⟩

/-- C5 counterexample: a stored record that *exists* but is empty (0 bytes,
hence "shorter than 12 bytes") is **not** reported as corruption — the
`len(serializedData) == 0` check treats it as absence and returns
`(nil, nil)`. -/
theorem dbFetchTxIndexEntry_empty_record_counterexample :
    (fun k => if k = 5 then some ([] : List Nat) else none) 5 = some [] ∧
    ([] : List Nat).length < 12 ∧
    dbFetchTxIndexEntry
        { txIndex := fun k => if k = 5 then some ([] : List Nat) else none,
          idByHash := fun _ => none, hashByID := fun _ => none,
          curBlockID := 0 } 5
      = .ok none :=
  ⟨rfl, by decide, rfl⟩


/-- If some transaction of the list has no stored record, the removal loop
fails (deletions only remove entries, so a missing entry stays missing until
its turn). -/
lemma removeEntriesLoop_error_of_missing :
    ∀ (txs : List BlockTx) (s : TxIndexState),
      (∃ t ∈ txs, s.txIndex t.hash = none) →
      removeEntriesLoop s txs = .error () := by
  intro txs
  induction txs with
  | nil => intro s h; simp at h
  | cons t rest ih =>
    intro s h
    by_cases ht : s.txIndex t.hash = none
    · have hrm : dbRemoveTxIndexEntry s t.hash = .error () := by
        simp [dbRemoveTxIndexEntry, ht]
      simp [removeEntriesLoop, hrm]
    · obtain ⟨u, hu, hmiss⟩ := h
      have hu' : u ∈ rest := by
        cases hu with
        | head => exact absurd hmiss ht
        | tail _ h2 => exact h2
      by_cases hlen : ((s.txIndex t.hash).getD []).length = 0
      · have hrm : dbRemoveTxIndexEntry s t.hash = .error () := by
          simp [dbRemoveTxIndexEntry, hlen]
        simp [removeEntriesLoop, hrm]
      · have hrm : dbRemoveTxIndexEntry s t.hash
            = .ok { s with txIndex := updFun s.txIndex t.hash none } := by
          simp [dbRemoveTxIndexEntry, hlen]
        have hstep : removeEntriesLoop s (t :: rest)
            = removeEntriesLoop { s with txIndex := updFun s.txIndex t.hash none } rest := by
          simp [removeEntriesLoop, hrm]
        rw [hstep]
        apply ih
        refine ⟨u, hu', ?_⟩
        simp only [updFun]
        by_cases hq : u.hash = t.hash <;> simp [hq, hmiss]

/-- If every transaction has a nonempty stored record and the hashes are
pairwise distinct, the removal loop succeeds, touching only the tx bucket. -/
lemma removeEntriesLoop_ok_of_present :
    ∀ (txs : List BlockTx) (s : TxIndexState),
      (txs.map (fun t => t.hash)).Nodup →
      (∀ t ∈ txs, ((s.txIndex t.hash).getD []).length ≠ 0) →
      ∃ s2, removeEntriesLoop s txs = .ok s2 ∧ s2.idByHash = s.idByHash ∧
        s2.hashByID = s.hashByID ∧ s2.curBlockID = s.curBlockID := by
  intro txs
  induction txs with
  | nil => intro s _ _; exact ⟨s, rfl, rfl, rfl, rfl⟩
  | cons t rest ih =>
    intro s hnodup hpres
    have hlen : ¬ ((s.txIndex t.hash).getD []).length = 0 :=
      hpres t (by simp)
    have hrm : dbRemoveTxIndexEntry s t.hash
        = .ok { s with txIndex := updFun s.txIndex t.hash none } := by
      simp [dbRemoveTxIndexEntry, hlen]
    have hstep : removeEntriesLoop s (t :: rest)
        = removeEntriesLoop { s with txIndex := updFun s.txIndex t.hash none } rest := by
      simp [removeEntriesLoop, hrm]
    rw [hstep]
    have hnotin : t.hash ∉ rest.map (fun u => u.hash) := by
      simp only [List.map_cons, List.nodup_cons] at hnodup
      exact hnodup.1
    obtain ⟨s2, hrun, h1, h2, h3⟩ :=
      ih { s with txIndex := updFun s.txIndex t.hash none }
        (by simp only [List.map_cons, List.nodup_cons] at hnodup; exact hnodup.2)
        (by
          intro u hu
          have hne : u.hash ≠ t.hash := by
            intro he
            exact hnotin (by rw [← he]; exact List.mem_map_of_mem _ hu)
          simpa [updFun, hne] using hpres u (List.mem_cons_of_mem _ hu))
    exact ⟨s2, hrun, h1, h2, h3⟩

/-- C6 (amended): `DisconnectBlock` errors when any transaction of the block
has no stored location entry; but when the block's hash has no entry in the
hash→locator mapping (and the transaction removals go through),
`dbRemoveBlockIDIndexEntry` silently succeeds and removes nothing — no error
is reported. -/
theorem disconnectBlock_missing_behavior (s : TxIndexState) (b : Block) :
    ((∃ t ∈ b.txs, s.txIndex t.hash = none) → DisconnectBlock s b = .error ()) ∧
    ((b.txs.map (fun t => t.hash)).Nodup →
      (∀ t ∈ b.txs, ((s.txIndex t.hash).getD []).length ≠ 0) →
      s.idByHash b.hash = none →
      ∃ s2, DisconnectBlock s b = .ok s2 ∧ s2.idByHash = s.idByHash ∧
        s2.hashByID = s.hashByID) := by
  constructor
  · intro h
    have := removeEntriesLoop_error_of_missing b.txs s h
    simp [DisconnectBlock, this]
  · intro hnodup hpres habsent
    obtain ⟨s1, hrun, h1, h2, h3⟩ := removeEntriesLoop_ok_of_present b.txs s hnodup hpres
    have hrmv : dbRemoveBlockIDIndexEntry s1 b.hash = s1 := by
      have : s1.idByHash b.hash = none := by rw [h1]; exact habsent
      simp [dbRemoveBlockIDIndexEntry, this]
    refine ⟨{ s1 with curBlockID := (s1.curBlockID + 4294967295) % 4294967296 },
      ?_, h1, h2⟩
    simp [DisconnectBlock, hrun, hrmv]

/-- C6 witness: disconnecting a block whose transaction was never indexed is
an error. -/
theorem disconnectBlock_missing_behavior_witness :
    DisconnectBlock
        { txIndex := fun _ => none, idByHash := fun _ => none,
          hashByID := fun _ => none, curBlockID := 3 }
        (Block.mk 77 [BlockTx.mk 9 0 100])
      = .error () :=
  (disconnectBlock_missing_behavior _ _).1 ⟨BlockTx.mk 9 0 100, by simp, rfl⟩

/-- C6 counterexample: disconnecting a block whose hash has **no** entry in
the hash→locator mapping is *not* reported as an error — `DisconnectBlock`
returns success (the claim says this case must be an error). -/
theorem disconnectBlock_no_blockid_counterexample :
    (fun (_ : Nat) => (none : Option Nat)) 77 = none ∧
    exceptIsOk
      (DisconnectBlock
        { txIndex := fun k => if k = 9 then some (putTxIndexEntry 1 (BlockTx.mk 9 0 100)) else none,
          idByHash := fun _ => none, hashByID := fun _ => none, curBlockID := 1 }
        (Block.mk 77 [BlockTx.mk 9 0 100])) = true :=
  ⟨rfl, rfl⟩


lemma updFun_comm {α : Type} (f : Nat → Option α) (a b : Nat) (va vb : Option α)
    (h : a ≠ b) : updFun (updFun f a va) b vb = updFun (updFun f b vb) a va := by
  funext q
  simp only [updFun]
  by_cases hqa : q = a <;> by_cases hqb : q = b
  · exfalso; omega
  · simp [hqa, hqb]
    exact fun hab => absurd hab h
  · simp [hqa, hqb]
    rw [if_neg (fun hba => h hba.symm)]
  · simp [hqa, hqb]

lemma updFun_absorb {α : Type} (f : Nat → Option α) (k : Nat) (va vb : Option α) :
    updFun (updFun f k va) k vb = updFun f k vb := by
  funext q
  simp only [updFun]
  by_cases hq : q = k <;> simp [hq]

lemma updFun_eq_self {α : Type} (f : Nat → Option α) (k : Nat) (v : Option α)
    (h : f k = v) : updFun f k v = f := by
  funext q
  simp only [updFun]
  by_cases hq : q = k <;> simp [hq, ← h]

/-- `addEntriesLoop` only writes the tx-location bucket. -/
lemma addEntriesLoop_fields (blockID : Nat) :
    ∀ (txs : List BlockTx) (s : TxIndexState),
      (addEntriesLoop blockID s txs).idByHash = s.idByHash ∧
      (addEntriesLoop blockID s txs).hashByID = s.hashByID ∧
      (addEntriesLoop blockID s txs).curBlockID = s.curBlockID := by
  intro txs
  induction txs with
  | nil => intro s; exact ⟨rfl, rfl, rfl⟩
  | cons t rest ih =>
    intro s
    simpa [addEntriesLoop] using
      ih { s with txIndex := updFun s.txIndex t.hash (some (putTxIndexEntry blockID t)) }

/-- Keys outside the block's transactions are untouched by the add loop. -/
lemma addEntriesLoop_txIndex_not_mem (blockID : Nat) :
    ∀ (txs : List BlockTx) (s : TxIndexState) (k : Nat),
      k ∉ txs.map (fun t => t.hash) →
      (addEntriesLoop blockID s txs).txIndex k = s.txIndex k := by
  intro txs
  induction txs with
  | nil => intro s k _; rfl
  | cons t rest ih =>
    intro s k hk
    simp only [List.map_cons, List.mem_cons, not_or] at hk
    have step : addEntriesLoop blockID s (t :: rest)
        = addEntriesLoop blockID
            { s with txIndex := updFun s.txIndex t.hash (some (putTxIndexEntry blockID t)) }
            rest := rfl
    rw [step, ih _ k hk.2]
    simp [updFun, hk.1]

/-- Deleting a key not written by the add loop commutes with the loop. -/
lemma addEntriesLoop_upd_comm (blockID : Nat) :
    ∀ (txs : List BlockTx) (s : TxIndexState) (k : Nat),
      k ∉ txs.map (fun t => t.hash) →
      updFun (addEntriesLoop blockID s txs).txIndex k none
        = (addEntriesLoop blockID { s with txIndex := updFun s.txIndex k none } txs).txIndex := by
  intro txs
  induction txs with
  | nil => intro s k _; rfl
  | cons t rest ih =>
    intro s k hk
    simp only [List.map_cons, List.mem_cons, not_or] at hk
    have step : addEntriesLoop blockID s (t :: rest)
        = addEntriesLoop blockID
            { s with txIndex := updFun s.txIndex t.hash (some (putTxIndexEntry blockID t)) }
            rest := rfl
    rw [step, ih _ k hk.2]
    have hcomm : updFun (updFun s.txIndex t.hash (some (putTxIndexEntry blockID t))) k none
        = updFun (updFun s.txIndex k none) t.hash (some (putTxIndexEntry blockID t)) :=
      updFun_comm _ _ _ _ _ (fun he => hk.1 he.symm)
    have hstates :
        ({ s with txIndex := updFun (updFun s.txIndex t.hash (some (putTxIndexEntry blockID t))) k none } : TxIndexState)
        = { s with txIndex := updFun (updFun s.txIndex k none) t.hash (some (putTxIndexEntry blockID t)) } := by
      rw [hcomm]
    rw [hstates]
    rfl

/-- A 12-byte location record is never empty. -/
lemma putTxIndexEntry_length (blockID : Nat) (t : BlockTx) :
    (putTxIndexEntry blockID t).length = 12 := by
  simp [putTxIndexEntry, putUint32]

/-- The removal loop exactly undoes the add loop on fresh, duplicate-free
keys, restoring the tx-location bucket. -/
lemma removeEntriesLoop_undoes_add (blockID : Nat) :
    ∀ (txs : List BlockTx) (s w : TxIndexState),
      (∀ x ∈ txs, s.txIndex x.hash = none) →
      (txs.map (fun t => t.hash)).Nodup →
      w.txIndex = (addEntriesLoop blockID s txs).txIndex →
      removeEntriesLoop w txs = .ok { w with txIndex := s.txIndex } := by
  intro txs
  induction txs with
  | nil =>
    intro s w _ _ hw
    have hw2 : w.txIndex = s.txIndex := hw
    show Except.ok w = _
    rw [← hw2]
  | cons x rest ih =>
    intro s w hfresh hnodup hw
    simp only [List.map_cons, List.nodup_cons] at hnodup
    have hxfresh : s.txIndex x.hash = none := hfresh x (by simp)
    have hval : w.txIndex x.hash = some (putTxIndexEntry blockID x) := by
      rw [hw]
      have step : addEntriesLoop blockID s (x :: rest)
          = addEntriesLoop blockID
              { s with txIndex := updFun s.txIndex x.hash (some (putTxIndexEntry blockID x)) }
              rest := rfl
      rw [step, addEntriesLoop_txIndex_not_mem blockID rest _ x.hash hnodup.1]
      simp [updFun]
    have hlen : ¬ ((w.txIndex x.hash).getD []).length = 0 := by
      rw [hval]
      simp [putTxIndexEntry_length]
    have hrm : dbRemoveTxIndexEntry w x.hash
        = .ok { w with txIndex := updFun w.txIndex x.hash none } := by
      simp [dbRemoveTxIndexEntry, hlen]
    have hstep : removeEntriesLoop w (x :: rest)
        = removeEntriesLoop { w with txIndex := updFun w.txIndex x.hash none } rest := by
      simp [removeEntriesLoop, hrm]
    rw [hstep]
    have hw' : updFun w.txIndex x.hash none = (addEntriesLoop blockID s rest).txIndex := by
      rw [hw]
      have step : addEntriesLoop blockID s (x :: rest)
          = addEntriesLoop blockID
              { s with txIndex := updFun s.txIndex x.hash (some (putTxIndexEntry blockID x)) }
              rest := rfl
      rw [step, addEntriesLoop_upd_comm blockID rest _ x.hash hnodup.1]
      have hcollapse :
          ({ s with txIndex := updFun (updFun s.txIndex x.hash (some (putTxIndexEntry blockID x))) x.hash none } : TxIndexState)
          = s := by
        rw [updFun_absorb, updFun_eq_self _ _ _ hxfresh]
      rw [hcollapse]
    have hres := ih s { w with txIndex := updFun w.txIndex x.hash none }
      (fun u hu => hfresh u (List.mem_cons_of_mem _ hu)) hnodup.2 hw'
    exact hres

/-- C4 (amended): connecting a block `B` and immediately disconnecting it in
the same database restores the index state exactly — counter, transaction
location entries and the block's hash↔locator mappings — provided `B`'s
transaction hashes are not already indexed and are pairwise distinct, `B`'s
hash has no hash→locator entry yet, and locator `curBlockID+1` has no
locator→hash entry yet. -/
theorem connectDisconnect_roundtrip (s : TxIndexState) (b : Block)
    (hfresh : ∀ t ∈ b.txs, s.txIndex t.hash = none)
    (hnodup : (b.txs.map (fun t => t.hash)).Nodup)
    (hhash : s.idByHash b.hash = none)
    (hid : s.hashByID ((s.curBlockID + 1) % 4294967296) = none)
    (hcur : s.curBlockID < 4294967296) :
    DisconnectBlock (ConnectBlock s b) b = .ok s := by
  have hfields := addEntriesLoop_fields ((s.curBlockID + 1) % 4294967296) b.txs s
  have hC : ConnectBlock s b
      = { txIndex := (addEntriesLoop ((s.curBlockID + 1) % 4294967296) s b.txs).txIndex,
          idByHash := updFun s.idByHash b.hash (some ((s.curBlockID + 1) % 4294967296)),
          hashByID := updFun s.hashByID ((s.curBlockID + 1) % 4294967296) (some b.hash),
          curBlockID := (s.curBlockID + 1) % 4294967296 } := by
    simp [ConnectBlock, dbPutBlockIDIndexEntry, hfields.1, hfields.2.1]
  have hrun := removeEntriesLoop_undoes_add ((s.curBlockID + 1) % 4294967296)
    b.txs s (ConnectBlock s b) hfresh hnodup (by rw [hC])
  have hD : ({ ConnectBlock s b with txIndex := s.txIndex } : TxIndexState)
      = { txIndex := s.txIndex,
          idByHash := updFun s.idByHash b.hash (some ((s.curBlockID + 1) % 4294967296)),
          hashByID := updFun s.hashByID ((s.curBlockID + 1) % 4294967296) (some b.hash),
          curBlockID := (s.curBlockID + 1) % 4294967296 } := by
    rw [hC]
  rw [hD] at hrun
  have hlook : (updFun s.idByHash b.hash (some ((s.curBlockID + 1) % 4294967296))) b.hash
      = some ((s.curBlockID + 1) % 4294967296) := by
    simp [updFun]
  have hrmv : dbRemoveBlockIDIndexEntry
      { txIndex := s.txIndex,
        idByHash := updFun s.idByHash b.hash (some ((s.curBlockID + 1) % 4294967296)),
        hashByID := updFun s.hashByID ((s.curBlockID + 1) % 4294967296) (some b.hash),
        curBlockID := (s.curBlockID + 1) % 4294967296 } b.hash
      = { txIndex := s.txIndex,
          idByHash := s.idByHash,
          hashByID := s.hashByID,
          curBlockID := (s.curBlockID + 1) % 4294967296 } := by
    simp only [dbRemoveBlockIDIndexEntry, hlook]
    rw [updFun_absorb, updFun_eq_self _ _ _ hhash, updFun_absorb,
      updFun_eq_self _ _ _ hid]
  have hcnt : ((s.curBlockID + 1) % 4294967296 + 4294967295) % 4294967296
      = s.curBlockID := by omega
  simp only [DisconnectBlock, hrun, hrmv, hcnt]

/-- C4 witness: a two-transaction block round-trips on the empty index. -/
theorem connectDisconnect_roundtrip_witness :
    DisconnectBlock
      (ConnectBlock
        { txIndex := fun _ => none, idByHash := fun _ => none,
          hashByID := fun _ => none, curBlockID := 0 }
        (Block.mk 5 [BlockTx.mk 1 0 10, BlockTx.mk 2 10 20]))
      (Block.mk 5 [BlockTx.mk 1 0 10, BlockTx.mk 2 10 20])
    = .ok { txIndex := fun _ => none, idByHash := fun _ => none,
            hashByID := fun _ => none, curBlockID := 0 } :=
  connectDisconnect_roundtrip _ _ (by simp) (by simp) rfl rfl (by decide)

/-- C4 counterexample: a block containing two transactions with the *same*
hash (none previously indexed, so the claim's hypothesis holds) does not
round-trip: the second removal finds no entry and `DisconnectBlock` errors,
leaving the state unrestored. -/
theorem connectDisconnect_dup_counterexample :
    (∀ t ∈ (Block.mk 5 [BlockTx.mk 3 0 10, BlockTx.mk 3 10 10]).txs,
      ({ txIndex := fun _ => none, idByHash := fun _ => none,
         hashByID := fun _ => none, curBlockID := 0 } : TxIndexState).txIndex t.hash
        = none) ∧
    exceptIsOk
      (DisconnectBlock
        (ConnectBlock
          { txIndex := fun _ => none, idByHash := fun _ => none,
            hashByID := fun _ => none, curBlockID := 0 }
          (Block.mk 5 [BlockTx.mk 3 0 10, BlockTx.mk 3 10 10]))
        (Block.mk 5 [BlockTx.mk 3 0 10, BlockTx.mk 3 10 10])) = false :=
  ⟨by simp, rfl⟩


/-! ## BlockTopologyIndex (`core/blockchain` `blockIndex`) -/

/-- An in-memory block node (`blockNode`): hash, height, status bitset, and
the parent link.  Parent/child links are modelled as non-owning references by
hash (`none` for the genesis node); the source holds a `*blockNode`
pointer. -/
structure BNode where
  hash : Nat
  height : Nat
  status : Nat
  parent : Option Nat
  deriving DecidableEq, Repr

/-- `blockIndex` (unnamed blockchain file, lines 37-47): the hash→node map
`index` and the height→tips map `chainTips`.  A height with no tips has no
map entry (`none`); Go's read of a missing key yields the nil slice, hence
the `getD []` below. -/
structure BlockIndexS where
  index : Nat → Option BNode
  chainTips : Nat → Option (List BNode)

/-- `newBlockIndex`: both maps empty. -/
def emptyBlockIndex : BlockIndexS :=
  { index := fun _ => none, chainTips := fun _ => none }

/-- The tip list at a height (missing key = nil slice). -/
def tipsAt (bi : BlockIndexS) (h : Nat) : List BNode :=
  (bi.chainTips h).getD []

/-- `blockIndex.addChainTip` (lines 111-113): append the node to its
height's list. -/
def addChainTip (bi : BlockIndexS) (tip : BNode) : BlockIndexS :=
  { bi with chainTips :=
      updFun bi.chainTips tip.height (some (tipsAt bi tip.height ++ [tip])) }

/-- The removal loop of `blockIndex.removeChainTip` (lines 119-127): find the
first occurrence of the tip (the source compares pointers; nodes here are
compared by value, equivalent under the index's unique-hash discipline) and
remove it, preserving the order of the rest (`copy` shifts left). -/
def removeFirstTip (tip : BNode) : List BNode → List BNode
  | [] => []
  | n :: rest => if n = tip then rest else n :: removeFirstTip tip rest

/-- `blockIndex.removeChainTip` (lines 118-136): remove the node from its
height's list, deleting the height entry entirely if the list becomes
empty. -/
def removeChainTip (bi : BlockIndexS) (tip : BNode) : BlockIndexS :=
  let nodes := removeFirstTip tip (tipsAt bi tip.height)
  { bi with chainTips :=
      if nodes.length = 0 then updFun bi.chainTips tip.height none
      else updFun bi.chainTips tip.height (some nodes) }

/-- `blockIndex.addNode` (lines 84-96): insert into the map, add as a chain
tip, and if the node has a parent remove the parent from the tip set.  The
source follows the stored parent pointer; here the parent node is fetched
from the index by hash — identical behaviour under `addNode`'s documented
precondition that the parent was added earlier and hashes are unique. -/
def addNode (bi : BlockIndexS) (node : BNode) : BlockIndexS :=
  let bi1 := { bi with index := updFun bi.index node.hash (some node) }
  let bi2 := addChainTip bi1 node
  match node.parent with
  | none => bi2
  | some ph =>
      match bi2.index ph with
      | some pnode => removeChainTip bi2 pnode
      | none => bi2

/-- Go's `&^` (AND-NOT) on the status bitset. -/
def statusAndNot (s f : Nat) : Nat :=
  Nat.bitwise (fun x y => x && !y) s f

/-- `blockIndex.SetStatusFlags` (lines 162-166): `node.status |= flags`,
mutating the node held in the index (identified by its hash). -/
def SetStatusFlags (bi : BlockIndexS) (h flags : Nat) : BlockIndexS :=
  { bi with index :=
      updFun bi.index h ((bi.index h).map (fun n => { n with status := n.status ||| flags })) }

/-- `blockIndex.UnsetStatusFlags` (lines 172-176): `node.status &^= flags`. -/
def UnsetStatusFlags (bi : BlockIndexS) (h flags : Nat) : BlockIndexS :=
  { bi with index :=
      updFun bi.index h ((bi.index h).map (fun n => { n with status := statusAndNot n.status flags })) }

/-- `testBit` of the AND-NOT combination. -/
lemma testBit_statusAndNot (s f i : Nat) :
    (statusAndNot s f).testBit i = (s.testBit i && !(f.testBit i)) :=
  Nat.testBit_bitwise rfl s f i

/-- C9: `SetStatusFlags` ORs the flags into the node's status and
`UnsetStatusFlags` AND-NOTs them out; every status bit outside the flag set
keeps its previous value, every other field of the node is preserved, no
other node is touched, and the tip map is untouched. -/
theorem statusFlags_correct (bi : BlockIndexS) (h flags : Nat) :
    ((SetStatusFlags bi h flags).chainTips = bi.chainTips ∧
      (∀ q, q ≠ h → (SetStatusFlags bi h flags).index q = bi.index q) ∧
      (∀ n, bi.index h = some n →
        ∃ n2, (SetStatusFlags bi h flags).index h = some n2 ∧
          n2.hash = n.hash ∧ n2.height = n.height ∧ n2.parent = n.parent ∧
          n2.status = n.status ||| flags ∧
          (∀ i, flags.testBit i = false → n2.status.testBit i = n.status.testBit i) ∧
          (∀ i, flags.testBit i = true → n2.status.testBit i = true))) ∧
    ((UnsetStatusFlags bi h flags).chainTips = bi.chainTips ∧
      (∀ q, q ≠ h → (UnsetStatusFlags bi h flags).index q = bi.index q) ∧
      (∀ n, bi.index h = some n →
        ∃ n2, (UnsetStatusFlags bi h flags).index h = some n2 ∧
          n2.hash = n.hash ∧ n2.height = n.height ∧ n2.parent = n.parent ∧
          n2.status = statusAndNot n.status flags ∧
          (∀ i, flags.testBit i = false → n2.status.testBit i = n.status.testBit i) ∧
          (∀ i, flags.testBit i = true → n2.status.testBit i = false))) := by
  refine ⟨⟨rfl, ?_, ?_⟩, ⟨rfl, ?_, ?_⟩⟩
  · intro q hq
    simp [SetStatusFlags, updFun, hq]
  · intro n hn
    refine ⟨{ n with status := n.status ||| flags }, ?_, rfl, rfl, rfl, rfl, ?_, ?_⟩
    · simp [SetStatusFlags, updFun, hn]
    · intro i hfi
      simp [Nat.testBit_lor, hfi]
    · intro i hfi
      simp [Nat.testBit_lor, hfi]
  · intro q hq
    simp [UnsetStatusFlags, updFun, hq]
  · intro n hn
    refine ⟨{ n with status := statusAndNot n.status flags }, ?_, rfl, rfl, rfl, rfl, ?_, ?_⟩
    · simp [UnsetStatusFlags, updFun, hn]
    · intro i hfi
      simp [testBit_statusAndNot, hfi]
    · intro i hfi
      simp [testBit_statusAndNot, hfi]

/-- C9 witness: flags applied to a concrete node in a one-node index. -/
theorem statusFlags_correct_witness :
    ∃ n2, (SetStatusFlags
        { index := fun k => if k = 4 then some (BNode.mk 4 9 0b1010 none) else none,
          chainTips := fun _ => none } 4 0b0110).index 4 = some n2 ∧
      n2.hash = 4 ∧ n2.height = 9 ∧ n2.parent = none ∧
      n2.status = 0b1010 ||| 0b0110 ∧
      (∀ i, (0b0110 : Nat).testBit i = false →
        n2.status.testBit i = (0b1010 : Nat).testBit i) ∧
      (∀ i, (0b0110 : Nat).testBit i = true → n2.status.testBit i = true) :=
  ((statusFlags_correct
      { index := fun k => if k = 4 then some (BNode.mk 4 9 0b1010 none) else none,
        chainTips := fun _ => none } 4 0b0110).1).2.2
    (BNode.mk 4 9 0b1010 none) rfl


lemma mem_of_mem_removeFirstTip (tip n : BNode) :
    ∀ l : List BNode, n ∈ removeFirstTip tip l → n ∈ l := by
  intro l
  induction l with
  | nil => simp [removeFirstTip]
  | cons a rest ih =>
    simp only [removeFirstTip]
    by_cases ha : a = tip
    · rw [if_pos ha]
      intro h
      exact List.mem_cons_of_mem _ h
    · rw [if_neg ha]
      intro h
      rcases List.mem_cons.mp h with h1 | h2
      · exact h1 ▸ List.mem_cons_self _ _
      · exact List.mem_cons_of_mem _ (ih h2)

lemma nodup_removeFirstTip (tip : BNode) :
    ∀ l : List BNode, l.Nodup → (removeFirstTip tip l).Nodup := by
  intro l
  induction l with
  | nil => intro _; simp [removeFirstTip]
  | cons a rest ih =>
    intro hnd
    rw [List.nodup_cons] at hnd
    simp only [removeFirstTip]
    by_cases ha : a = tip
    · rw [if_pos ha]; exact hnd.2
    · rw [if_neg ha]
      rw [List.nodup_cons]
      exact ⟨fun hmem => hnd.1 (mem_of_mem_removeFirstTip tip a rest hmem), ih hnd.2⟩

/-- On duplicate-free lists, removing the first occurrence removes exactly
the tip. -/
lemma mem_removeFirstTip (tip n : BNode) :
    ∀ l : List BNode, l.Nodup → (n ∈ removeFirstTip tip l ↔ n ∈ l ∧ n ≠ tip) := by
  intro l
  induction l with
  | nil => intro _; simp [removeFirstTip]
  | cons a rest ih =>
    intro hnd
    rw [List.nodup_cons] at hnd
    simp only [removeFirstTip]
    by_cases ha : a = tip
    · rw [if_pos ha]
      subst ha
      constructor
      · intro h
        exact ⟨List.mem_cons_of_mem _ h, fun he => hnd.1 (he ▸ h)⟩
      · rintro ⟨hmem, hne⟩
        rcases List.mem_cons.mp hmem with h1 | h2
        · exact absurd h1 hne
        · exact h2
    · rw [if_neg ha]
      constructor
      · intro h
        rcases List.mem_cons.mp h with h1 | h2
        · exact ⟨h1 ▸ List.mem_cons_self _ _, h1 ▸ ha⟩
        · obtain ⟨hm, hn⟩ := (ih hnd.2).mp h2
          exact ⟨List.mem_cons_of_mem _ hm, hn⟩
      · rintro ⟨hmem, hne⟩
        rcases List.mem_cons.mp hmem with h1 | h2
        · exact h1 ▸ List.mem_cons_self _ _
        · exact List.mem_cons_of_mem _ ((ih hnd.2).mpr ⟨h2, hne⟩)

/-- The induction invariant tying the in-memory index to the multiset of
nodes added so far: hashes are unique; every added node is indexed at its
hash and nothing else is indexed; the tip lists hold exactly the added
nodes of their height that no added node names as parent; tip lists are
duplicate-free, never stored empty; and parents resolve within the added
set. -/
def TipInv (added : List BNode) (bi : BlockIndexS) : Prop :=
  added.Pairwise (fun a b => a.hash ≠ b.hash) ∧
  (∀ m ∈ added, bi.index m.hash = some m) ∧
  (∀ k n, bi.index k = some n → n ∈ added ∧ n.hash = k) ∧
  (∀ h n, n ∈ tipsAt bi h ↔
    (n ∈ added ∧ n.height = h ∧ ∀ m ∈ added, m.parent ≠ some n.hash)) ∧
  (∀ h, bi.chainTips h ≠ some []) ∧
  (∀ h, (tipsAt bi h).Nodup) ∧
  (∀ m ∈ added, ∀ ph, m.parent = some ph → ∃ u ∈ added, u.hash = ph)

/-- The intermediate state of `addNode` after the index insert and
`addChainTip`, before the parent tip removal. -/
def addNodeStage (bi : BlockIndexS) (nd : BNode) : BlockIndexS :=
  { index := updFun bi.index nd.hash (some nd),
    chainTips := updFun bi.chainTips nd.height
      (some (tipsAt bi nd.height ++ [nd])) }

/-- `addNode`, written out: update the index, append to the height's tips,
then (when a parent exists and is indexed) remove the parent tip. -/
lemma addNode_eq (bi : BlockIndexS) (nd : BNode) :
    addNode bi nd =
      match nd.parent with
      | none => addNodeStage bi nd
      | some ph =>
          match (addNodeStage bi nd).index ph with
          | some pnode => removeChainTip (addNodeStage bi nd) pnode
          | none => addNodeStage bi nd := rfl

lemma tipsAt_addNodeStage (bi : BlockIndexS) (nd : BNode) (h2 : Nat) :
    tipsAt (addNodeStage bi nd) h2
      = if h2 = nd.height then tipsAt bi nd.height ++ [nd] else tipsAt bi h2 := by
  by_cases hh : h2 = nd.height <;> simp [addNodeStage, tipsAt, updFun, hh]


/-- One `addNode` call preserves the invariant, for a node with a fresh hash
whose parent (if any) was added earlier. -/
lemma tipInv_addNode (added : List BNode) (bi : BlockIndexS) (nd : BNode)
    (hinv : TipInv added bi)
    (hfresh : ∀ m ∈ added, m.hash ≠ nd.hash)
    (hpar : ∀ ph, nd.parent = some ph → ∃ m ∈ added, m.hash = ph) :
    TipInv (added ++ [nd]) (addNode bi nd) := by
  obtain ⟨hpw, hJ1, hJ2, hI2, hI3, hI4, hI5⟩ := hinv
  have hndmem : nd ∉ added := fun hm => hfresh nd hm rfl
  have hndtips : ∀ h2, nd ∉ tipsAt bi h2 := fun h2 hm => hndmem ((hI2 h2 nd).mp hm).1
  have hnoref : ∀ m ∈ added, m.parent ≠ some nd.hash := by
    intro m hm hcon
    obtain ⟨u, hu, huh⟩ := hI5 m hm nd.hash hcon
    exact hfresh u hu huh
  have hmem2 : ∀ h2 n, n ∈ tipsAt (addNodeStage bi nd) h2 ↔
      (n ∈ tipsAt bi h2 ∨ (n = nd ∧ h2 = nd.height)) := by
    intro h2 n
    rw [tipsAt_addNodeStage]
    by_cases hh : h2 = nd.height
    · subst hh
      simp [List.mem_append]
    · simp [hh]
  have hheight2 : ∀ h2 n, n ∈ tipsAt (addNodeStage bi nd) h2 → n.height = h2 := by
    intro h2 n hm
    rcases (hmem2 h2 n).mp hm with hm1 | ⟨he, hh⟩
    · exact ((hI2 h2 n).mp hm1).2.1
    · subst he; subst hh; rfl
  have hnodup2 : ∀ h2, (tipsAt (addNodeStage bi nd) h2).Nodup := by
    intro h2
    rw [tipsAt_addNodeStage]
    by_cases hh : h2 = nd.height
    · rw [if_pos hh, List.nodup_append]
      refine ⟨hI4 _, List.nodup_singleton _, ?_⟩
      intro x hx hx2
      simp at hx2
      subst hx2
      exact hndtips _ hx
    · rw [if_neg hh]
      exact hI4 h2
  have hI32 : ∀ h2, (addNodeStage bi nd).chainTips h2 ≠ some [] := by
    intro h2
    simp only [addNodeStage, updFun]
    by_cases hh : h2 = nd.height
    · simp [hh]
    · simp only [hh, if_false]
      exact hI3 h2
  have hpw2 : (added ++ [nd]).Pairwise (fun a b => a.hash ≠ b.hash) := by
    rw [List.pairwise_append]
    refine ⟨hpw, List.pairwise_singleton _ _, ?_⟩
    intro a ha b hb
    simp at hb
    subst hb
    exact hfresh a ha
  have hJ1s : ∀ m ∈ added ++ [nd], (addNodeStage bi nd).index m.hash = some m := by
    intro m hm
    show (updFun bi.index nd.hash (some nd)) m.hash = some m
    rcases List.mem_append.mp hm with hm1 | hm2
    · simp only [updFun]
      rw [if_neg (hfresh m hm1)]
      exact hJ1 m hm1
    · simp at hm2
      subst hm2
      simp [updFun]
  have hJ2s : ∀ k n, (addNodeStage bi nd).index k = some n →
      n ∈ added ++ [nd] ∧ n.hash = k := by
    intro k n hk
    have hk2 : (updFun bi.index nd.hash (some nd)) k = some n := hk
    simp only [updFun] at hk2
    by_cases hkh : k = nd.hash
    · rw [if_pos hkh] at hk2
      injection hk2 with hk2
      subst hk2
      exact ⟨List.mem_append_right _ (by simp), hkh.symm⟩
    · rw [if_neg hkh] at hk2
      obtain ⟨h1, h2⟩ := hJ2 k n hk2
      exact ⟨List.mem_append_left _ h1, h2⟩
  have hI5s : ∀ m ∈ added ++ [nd], ∀ ph, m.parent = some ph →
      ∃ u ∈ added ++ [nd], u.hash = ph := by
    intro m hm ph hph
    rcases List.mem_append.mp hm with hm1 | hm2
    · obtain ⟨u, hu, huh⟩ := hI5 m hm1 ph hph
      exact ⟨u, List.mem_append_left _ hu, huh⟩
    · simp at hm2
      subst hm2
      obtain ⟨u, hu, huh⟩ := hpar ph hph
      exact ⟨u, List.mem_append_left _ hu, huh⟩
  rw [addNode_eq]
  cases hnp : nd.parent with
  | none =>
    show TipInv (added ++ [nd]) (addNodeStage bi nd)
    refine ⟨hpw2, hJ1s, hJ2s, ?_, hI32, hnodup2, hI5s⟩
    intro h2 n
    rw [hmem2 h2 n]
    constructor
    · rintro (hm | ⟨he, hh⟩)
      · obtain ⟨hmA, hht, hC⟩ := (hI2 h2 n).mp hm
        refine ⟨List.mem_append_left _ hmA, hht, ?_⟩
        intro m hmm
        rcases List.mem_append.mp hmm with h1 | hm2
        · exact hC m h1
        · simp at hm2
          subst hm2
          rw [hnp]
          simp
      · subst he
        subst hh
        refine ⟨List.mem_append_right _ (by simp), rfl, ?_⟩
        intro m hmm
        rcases List.mem_append.mp hmm with h1 | hm2
        · exact hnoref m h1
        · simp at hm2
          subst hm2
          rw [hnp]
          simp
    · rintro ⟨hmem, hht, hC⟩
      rcases List.mem_append.mp hmem with h1 | h2'
      · exact Or.inl ((hI2 h2 n).mpr
          ⟨h1, hht, fun m hm => hC m (List.mem_append_left _ hm)⟩)
      · simp at h2'
        subst h2'
        exact Or.inr ⟨rfl, hht.symm⟩
  | some ph =>
    obtain ⟨pm, hpmm, hpmh⟩ := hpar ph hnp
    have hphnd : ph ≠ nd.hash := fun he => hfresh pm hpmm (hpmh.trans he)
    have hlook : (addNodeStage bi nd).index ph = some pm := by
      show (updFun bi.index nd.hash (some nd)) ph = some pm
      simp only [updFun]
      rw [if_neg hphnd, ← hpmh]
      exact hJ1 pm hpmm
    show TipInv (added ++ [nd])
      (match (addNodeStage bi nd).index ph with
       | some pnode => removeChainTip (addNodeStage bi nd) pnode
       | none => addNodeStage bi nd)
    rw [hlook]
    show TipInv (added ++ [nd]) (removeChainTip (addNodeStage bi nd) pm)
    have hsymm : Symmetric (fun a b : BNode => a.hash ≠ b.hash) :=
      fun _ _ hab => hab.symm
    have huniq : ∀ u ∈ added, u.hash = ph → u = pm := by
      intro u hu huh
      by_contra hne
      exact (List.Pairwise.forall hsymm hpw) hu hpmm hne (huh.trans hpmh.symm)
    have hndpm : nd ≠ pm := by
      intro he
      apply hphnd
      rw [← hpmh, he]
    have htips3 : ∀ h2, tipsAt (removeChainTip (addNodeStage bi nd) pm) h2
        = if h2 = pm.height
          then removeFirstTip pm (tipsAt (addNodeStage bi nd) pm.height)
          else tipsAt (addNodeStage bi nd) h2 := by
      intro h2
      show ((if (removeFirstTip pm (tipsAt (addNodeStage bi nd) pm.height)).length = 0
          then updFun (addNodeStage bi nd).chainTips pm.height none
          else updFun (addNodeStage bi nd).chainTips pm.height
            (some (removeFirstTip pm (tipsAt (addNodeStage bi nd) pm.height)))) h2).getD []
        = _
      by_cases hlen : (removeFirstTip pm (tipsAt (addNodeStage bi nd) pm.height)).length = 0
      · rw [if_pos hlen]
        have hnil : removeFirstTip pm (tipsAt (addNodeStage bi nd) pm.height) = [] :=
          List.eq_nil_of_length_eq_zero hlen
        simp only [updFun]
        by_cases hh : h2 = pm.height
        · rw [if_pos hh, if_pos hh, hnil]
          rfl
        · rw [if_neg hh, if_neg hh]
          rfl
      · rw [if_neg hlen]
        simp only [updFun]
        by_cases hh : h2 = pm.height
        · rw [if_pos hh, if_pos hh]
          rfl
        · rw [if_neg hh, if_neg hh]
          rfl
    have hmem3 : ∀ h2 n, n ∈ tipsAt (removeChainTip (addNodeStage bi nd) pm) h2 ↔
        (n ∈ tipsAt (addNodeStage bi nd) h2 ∧ n ≠ pm) := by
      intro h2 n
      rw [htips3]
      by_cases hh : h2 = pm.height
      · rw [if_pos hh, mem_removeFirstTip pm n _ (hnodup2 pm.height), hh]
      · rw [if_neg hh]
        constructor
        · intro hm
          refine ⟨hm, ?_⟩
          intro he
          subst he
          exact hh (hheight2 h2 n hm).symm
        · exact fun h => h.1
    have hI33 : ∀ h2, (removeChainTip (addNodeStage bi nd) pm).chainTips h2 ≠ some [] := by
      intro h2
      show (if (removeFirstTip pm (tipsAt (addNodeStage bi nd) pm.height)).length = 0
          then updFun (addNodeStage bi nd).chainTips pm.height none
          else updFun (addNodeStage bi nd).chainTips pm.height
            (some (removeFirstTip pm (tipsAt (addNodeStage bi nd) pm.height)))) h2 ≠ some []
      by_cases hlen : (removeFirstTip pm (tipsAt (addNodeStage bi nd) pm.height)).length = 0
      · rw [if_pos hlen]
        simp only [updFun]
        by_cases hh : h2 = pm.height
        · simp [hh]
        · simp only [hh, if_false]
          exact hI32 h2
      · rw [if_neg hlen]
        simp only [updFun]
        by_cases hh : h2 = pm.height
        · rw [if_pos hh]
          intro hcon
          injection hcon with hcon
          exact hlen (by rw [hcon]; rfl)
        · rw [if_neg hh]
          exact hI32 h2
    have hnodup3 : ∀ h2, (tipsAt (removeChainTip (addNodeStage bi nd) pm) h2).Nodup := by
      intro h2
      rw [htips3]
      by_cases hh : h2 = pm.height
      · rw [if_pos hh]
        exact nodup_removeFirstTip pm _ (hnodup2 pm.height)
      · rw [if_neg hh]
        exact hnodup2 h2
    refine ⟨hpw2, hJ1s, hJ2s, ?_, hI33, hnodup3, hI5s⟩
    intro h2 n
    rw [hmem3 h2 n, hmem2 h2 n]
    by_cases hn_pm : n = pm
    · subst hn_pm
      constructor
      · rintro ⟨_, hne⟩
        exact absurd rfl hne
      · rintro ⟨_, _, hC⟩
        exfalso
        apply hC nd (List.mem_append_right _ (by simp))
        rw [hnp, hpmh]
    · by_cases hn_nd : n = nd
      · subst hn_nd
        constructor
        · rintro ⟨hm | ⟨_, hh⟩, _⟩
          · exact absurd hm (hndtips h2)
          · subst hh
            refine ⟨List.mem_append_right _ (by simp), rfl, ?_⟩
            intro m hmm
            rcases List.mem_append.mp hmm with h1 | hm2
            · exact hnoref m h1
            · simp at hm2
              subst hm2
              rw [hnp]
              simp
              exact fun hcon => hphnd hcon
        · rintro ⟨_, hht, _⟩
          exact ⟨Or.inr ⟨rfl, hht.symm⟩, hn_pm⟩
      · constructor
        · rintro ⟨hm | ⟨he, _⟩, _⟩
          · obtain ⟨hmA, hht, hC⟩ := (hI2 h2 n).mp hm
            refine ⟨List.mem_append_left _ hmA, hht, ?_⟩
            intro m hmm
            rcases List.mem_append.mp hmm with h1 | hm2
            · exact hC m h1
            · simp at hm2
              subst hm2
              rw [hnp]
              intro hcon
              injection hcon with hcon
              exact hn_pm (huniq n hmA hcon.symm)
          · exact absurd he hn_nd
        · rintro ⟨hmem, hht, hC⟩
          rcases List.mem_append.mp hmem with h1 | h2'
          · refine ⟨Or.inl ((hI2 h2 n).mpr
              ⟨h1, hht, fun m hm => hC m (List.mem_append_left _ hm)⟩), hn_pm⟩
          · simp at h2'
            exact absurd h2' hn_nd


/-- The claim's precondition on a sequence of `addNode` calls, checked
against the prefix already added: no hash is added twice, and every node's
parent (when non-nil) was added earlier. -/
def validFromB (done : List BNode) : List BNode → Bool
  | [] => true
  | n :: rest =>
      (done.all fun m => m.hash != n.hash) &&
      (match n.parent with
       | none => true
       | some ph => done.any fun m => m.hash == ph) &&
      validFromB (done ++ [n]) rest

/-- A sequence of `AddNode` calls. -/
def applyAdds : BlockIndexS → List BNode → BlockIndexS
  | bi, [] => bi
  | bi, n :: rest => applyAdds (addNode bi n) rest

lemma tipInv_applyAdds :
    ∀ (rest done : List BNode) (bi : BlockIndexS),
      TipInv done bi → validFromB done rest = true →
      TipInv (done ++ rest) (applyAdds bi rest) := by
  intro rest
  induction rest with
  | nil =>
    intro done bi hinv _
    simpa using hinv
  | cons n rest ih =>
    intro done bi hinv hv
    simp only [validFromB, Bool.and_eq_true] at hv
    obtain ⟨⟨hall, hpar0⟩, hrest⟩ := hv
    have hfresh : ∀ m ∈ done, m.hash ≠ n.hash := by
      intro m hm
      have := List.all_eq_true.mp hall m hm
      simpa using this
    have hparent : ∀ ph, n.parent = some ph → ∃ m ∈ done, m.hash = ph := by
      intro ph hph
      rw [hph] at hpar0
      obtain ⟨m, hm, hmh⟩ := List.any_eq_true.mp hpar0
      exact ⟨m, hm, by simpa using hmh⟩
    have hstep := tipInv_addNode done bi n hinv hfresh hparent
    have hres := ih (done ++ [n]) (addNode bi n) hstep hrest
    simpa [List.append_assoc] using hres

/-- C7: starting from the empty block index, after any valid sequence of
`addNode` calls (no duplicate hashes; parents added earlier), the tip map
holds, at each height, exactly the added nodes of that height that are not
the parent of any added node; and no height maps to an empty tip list (an
emptied height is deleted). -/
theorem chainTips_characterization (seq : List BNode)
    (hvalid : validFromB [] seq = true) :
    (∀ h n, n ∈ tipsAt (applyAdds emptyBlockIndex seq) h ↔
      (n ∈ seq ∧ n.height = h ∧ ∀ m ∈ seq, m.parent ≠ some n.hash)) ∧
    (∀ h, (applyAdds emptyBlockIndex seq).chainTips h ≠ some []) := by
  have hempty : TipInv [] emptyBlockIndex := by
    refine ⟨List.Pairwise.nil, ?_, ?_, ?_, ?_, ?_, ?_⟩
    · intro m hm
      simp at hm
    · intro k n hk
      simp [emptyBlockIndex] at hk
    · intro h n
      simp [emptyBlockIndex, tipsAt]
    · intro h
      simp [emptyBlockIndex]
    · intro h
      simp [emptyBlockIndex, tipsAt]
    · intro m hm
      simp at hm
  have hres := tipInv_applyAdds seq [] emptyBlockIndex hempty hvalid
  simp only [List.nil_append] at hres
  exact ⟨hres.2.2.2.1, hres.2.2.2.2.1⟩

/-- C7 witness: two siblings at height 5 and a child (height 6) of the
first; the extended sibling leaves the tip set, the other sibling and the
child are tips. -/
theorem chainTips_characterization_witness :
    validFromB [] [BNode.mk 1 5 0 none, BNode.mk 2 5 0 none, BNode.mk 3 6 0 (some 1)] = true ∧
    BNode.mk 1 5 0 none ∉ tipsAt (applyAdds emptyBlockIndex
      [BNode.mk 1 5 0 none, BNode.mk 2 5 0 none, BNode.mk 3 6 0 (some 1)]) 5 ∧
    BNode.mk 2 5 0 none ∈ tipsAt (applyAdds emptyBlockIndex
      [BNode.mk 1 5 0 none, BNode.mk 2 5 0 none, BNode.mk 3 6 0 (some 1)]) 5 ∧
    BNode.mk 3 6 0 (some 1) ∈ tipsAt (applyAdds emptyBlockIndex
      [BNode.mk 1 5 0 none, BNode.mk 2 5 0 none, BNode.mk 3 6 0 (some 1)]) 6 := by
  have hchar := chainTips_characterization
    [BNode.mk 1 5 0 none, BNode.mk 2 5 0 none, BNode.mk 3 6 0 (some 1)] (by decide)
  refine ⟨by decide, ?_, ?_, ?_⟩
  · intro hmem
    obtain ⟨_, _, hC⟩ := (hchar.1 5 (BNode.mk 1 5 0 none)).mp hmem
    exact hC (BNode.mk 3 6 0 (some 1)) (by decide) rfl
  · exact (hchar.1 5 (BNode.mk 2 5 0 none)).mpr ⟨by decide, rfl, by decide⟩
  · exact (hchar.1 6 (BNode.mk 3 6 0 (some 1))).mpr ⟨by decide, rfl, by decide⟩


end Qitmeer

